import Mathlib

/-!
# Verification of the Sorcar/Horndini Horn-constraint learner

A shallow embedding of the learner implemented in `include/sorcar copy.h`
(namespace `horn_verification`, classes `sorcar` and `winnow`), together with
theorems settling the specification's claims about it.

Modelling conventions:
* `std::set<unsigned>` becomes `Finset ℕ`; iteration over a `std::set` is in
  ascending key order, which corresponds to `ascElems` (the elements in
  ascending order) or to the minimum of a filtered set when only the first
  hit matters.
* A `datapoint<bool>` carries its bit vector (`_int_data`), its location
  (`_categorical_data[0]`), and its classification state.
* The `⊥` conclusion of a Horn constraint (a null pointer in the source)
  becomes `Option datapoint` with `none` for `⊥`.
* Fallible functions return `Except String`; a C++ `throw` and a failed
  C `assert` both become `.error` (an `assert` aborts the process, so a call
  that "returns without raising an error" is one where every assert passed).
  Index-range asserts such as `assert (id < R.size())` are not modelled;
  out-of-range container access reads as `List.getD _ _ ∅`.
* Vectors of per-location conjunctions become `List (Finset ℕ)`.
-/

set_option linter.unusedVariables false

namespace HornVerification

/-- A data point: bit vector `_int_data`, location `_categorical_data[0]`,
and classification state (`_is_classified`, `_classification`). -/
structure datapoint where
  bits : List Bool
  loc : ℕ
  is_classified : Bool
  classification : Bool
deriving DecidableEq, Repr

/-- A Horn constraint: premises `_premises` and conclusion `_conclusion`
(`none` models the null pointer, read as `⊥`). -/
structure horn_constraint where
  premises : List datapoint
  conclusion : Option datapoint
deriving DecidableEq, Repr

instance {ε α : Type} [DecidableEq ε] [DecidableEq α] : DecidableEq (Except ε α) := fun a b =>
  match a, b with
  | .error e, .error f =>
    if h : e = f then isTrue (by rw [h])
    else isFalse (fun hh => by injection hh with hh; exact h hh)
  | .error e, .ok b => isFalse (fun hh => Except.noConfusion hh)
  | .ok a, .error f => isFalse (fun hh => Except.noConfusion hh)
  | .ok a, .ok b =>
    if h : a = b then isTrue (by rw [h])
    else isFalse (fun hh => by injection hh with hh; exact h hh)

/-- `sorcar::satisfies`: a data point satisfies a conjunction iff every
predicate index in the conjunction has a true bit in the data point. -/
def satisfies (dp : datapoint) (conjunction : Finset ℕ) : Bool :=
  decide (∀ c ∈ conjunction, dp.bits.getD c false = true)

/-- Look up the conjunction of a location in a per-location vector,
defaulting to the empty conjunction. -/
def conjAt (predicates : List (Finset ℕ)) (k : ℕ) : Finset ℕ :=
  predicates.getD k ∅

/-- The elements of a `Finset ℕ` in ascending order — the iteration order of
the `std::set` it models. -/
def ascElems (s : Finset ℕ) : List ℕ :=
  (List.range (s.sup id + 1)).filter (fun a => a ∈ s)

/-- `sorcar::is_consistent`: every positive data point satisfies its
location's conjunction, no negative one does, and every Horn constraint
whose premises all satisfy the hypothesis has a conclusion (not `⊥`)
that satisfies the hypothesis. -/
def is_consistent (predicates : List (Finset ℕ)) (datapoints : List datapoint)
    (horn_constraints : List horn_constraint) : Bool :=
  (datapoints.all fun dp =>
    !dp.is_classified || (satisfies dp (conjAt predicates dp.loc) == dp.classification)) &&
  (horn_constraints.all fun hc =>
    !(hc.premises.all fun p => satisfies p (conjAt predicates p.loc)) ||
      (match hc.conclusion with
       | none => false
       | some c => satisfies c (conjAt predicates c.loc)))

/-- The specification-level reading of consistency (§3 of the spec). -/
def consistent_spec (predicates : List (Finset ℕ)) (datapoints : List datapoint)
    (horn_constraints : List horn_constraint) : Prop :=
  (∀ dp ∈ datapoints, dp.is_classified = true → dp.classification = true →
      satisfies dp (conjAt predicates dp.loc) = true) ∧
  (∀ dp ∈ datapoints, dp.is_classified = true → dp.classification = false →
      satisfies dp (conjAt predicates dp.loc) = false) ∧
  (∀ hc ∈ horn_constraints,
      (∀ p ∈ hc.premises, satisfies p (conjAt predicates p.loc) = true) →
      ∃ c, hc.conclusion = some c ∧ satisfies c (conjAt predicates c.loc) = true)

/-! ## List helpers for per-location updates -/

/-- In-place update of one location of a per-location vector
(the source mutates `R[id]` through a reference). -/
def updAt (l : List (Finset ℕ)) (k : ℕ) (f : Finset ℕ → Finset ℕ) : List (Finset ℕ) :=
  l.set k (f (l.getD k ∅))

/-! ## `sorcar::prepare_sets`

The source walks the two ordered sets of one location in parallel with
iterators, erasing from `R` the elements absent from `X` and collecting in
`X_minus_R` the elements of `X` absent from `R`.  `prepare_walk` is that merge
walk on the sorted element lists; `prepare_sets` is the per-location result at
the set level (`R := R ∩ X`, `X_minus_R := X \ R`). -/

/-- The iterator merge walk of `sorcar::prepare_sets` on one location, on the
sorted element lists of `R` and `X`.  Returns the retained `R` elements and the
collected `X_minus_R` elements, in order. -/
def prepare_walk : List ℕ → List ℕ → List ℕ × List ℕ
  | [], X => ([], X)
  | _ :: _, [] => ([], [])
  | r :: R, x :: X =>
    if r < x then
      prepare_walk R (x :: X)
    else if x < r then
      let res := prepare_walk (r :: R) X
      (res.1, x :: res.2)
    else
      let res := prepare_walk R X
      (r :: res.1, res.2)
termination_by R X => R.length + X.length

/-- `sorcar::prepare_sets` at the set level: per location,
`R` becomes `R ∩ X` and `X_minus_R` becomes `X \ R`. -/
def prepare_sets (X R : List (Finset ℕ)) : List (Finset ℕ) × List (Finset ℕ) :=
  (X.zipWith (fun x r => r ∩ x) R, X.zipWith (fun x r => x \ r) R)

/-! ## Horndini (`sorcar::horndini`)

The source keeps a work list `positive` of data points, a working copy of the
Horn constraints, and the per-location conjunctions.  Each round of the
do-while loop first knocks out of `conjunctions[dp.loc]` every predicate that
is false in a queued positive point, then walks the Horn list, erasing every
premise that satisfies the current conjunctions; a constraint whose premise
list empties either aborts (`⊥` conclusion, modelled by the error
`"No consistent conjunction exists"`) or enqueues its conclusion and is
dropped.  The loop repeats while the queue is non-empty. -/

/-- The knock-out of one positive data point: erase from the conjunction of
its location every predicate index whose bit is false. -/
def knockout1 (conj : List (Finset ℕ)) (dp : datapoint) : List (Finset ℕ) :=
  updAt conj dp.loc (fun s => s.filter (fun i => dp.bits.getD i false = true))

/-- The knock-out pass over the queued positive data points. -/
def knockout (conj : List (Finset ℕ)) (positive : List datapoint) : List (Finset ℕ) :=
  positive.foldl knockout1 conj

/-- One firing pass over the working Horn list.  Returns the surviving
constraints (with their discharged premises erased) and the conclusions that
were enqueued as new positives, or fails on an empty-premise `⊥` constraint. -/
def fire (conj : List (Finset ℕ)) :
    List horn_constraint → Except String (List horn_constraint × List datapoint)
  | [] => .ok ([], [])
  | hc :: rest =>
    let premises' := hc.premises.filter (fun p => !(satisfies p (conjAt conj p.loc)))
    if premises'.isEmpty then
      match hc.conclusion with
      | none => .error "No consistent conjunction exists"
      | some c =>
        match fire conj rest with
        | .error e => .error e
        | .ok (kept, pos) => .ok (kept, c :: pos)
    else
      match fire conj rest with
      | .error e => .error e
      | .ok (kept, pos) => .ok (⟨premises', hc.conclusion⟩ :: kept, pos)

/-- The main do-while loop of `sorcar::horndini`: knock out the queued
positives, run a firing pass, and repeat while new positives were enqueued.
Every repeat has consumed at least one Horn constraint (`fire_length`), so at
the canonical fuel `hcs.length + 1` used by `horndini` the fuel never runs
out; the zero-fuel error is a modelling artefact of the do-while loop. -/
def horndiniLoop : ℕ → List (Finset ℕ) → List horn_constraint → List datapoint →
    Except String (List (Finset ℕ))
  | 0, _, _, _ => .error "horndini fixed-point did not terminate"
  | fuel + 1, conj, hcs, positive =>
    let conj' := knockout conj positive
    match fire conj' hcs with
    | .error e => .error e
    | .ok (hcs', newPos) =>
      if newPos.isEmpty then .ok conj'
      else horndiniLoop fuel conj' hcs' newPos

/-- `sorcar::horndini` (the in-place overload): collect the classified
positive data points as the initial queue and run the loop. -/
def horndini (datapoints : List datapoint) (horn_constraints : List horn_constraint)
    (conjunctions : List (Finset ℕ)) : Except String (List (Finset ℕ)) :=
  let positive := datapoints.filter (fun dp => dp.is_classified && dp.classification)
  horndiniLoop (horn_constraints.length + 1) conjunctions horn_constraints positive

/-- The `sorcar::horndini` wrapper: reject an empty interval list, initialise
each location's conjunction to its full interval, and run Horndini. -/
def horndiniX (datapoints : List datapoint) (horn_constraints : List horn_constraint)
    (intervals : List (ℕ × ℕ)) : Except String (List (Finset ℕ)) :=
  if intervals.isEmpty then .error "Intervals are empty"
  else horndini datapoints horn_constraints
    (intervals.map (fun p => Finset.Icc p.1 p.2))

/-! ## Sorcar reducers

All variants first size-check `X` against `R`, run `prepare_sets`, process the
negative examples once, and then run a fixed-point pass over the Horn
constraints.  Failed `assert`s become errors (see the header comment). -/

/-- The relevant predicates of a data point at location `id`: the elements of
`X_minus_R[id]` whose bit is 0 in the data point. -/
def zerosOf (XmR : List (Finset ℕ)) (dp : datapoint) (id : ℕ) : Finset ℕ :=
  (conjAt XmR id).filter (fun i => dp.bits.getD i false = false)

/-- Whether the left-hand side of a Horn constraint satisfies `R`. -/
def lhsSat (R : List (Finset ℕ)) (hc : horn_constraint) : Bool :=
  hc.premises.all (fun p => satisfies p (conjAt R p.loc))

/-- Whether the conclusion of a Horn constraint is non-`⊥` and satisfies `R`
(the `else if` guard of the Horn passes). -/
def conclSat (R : List (Finset ℕ)) (hc : horn_constraint) : Bool :=
  match hc.conclusion with
  | none => false
  | some c => satisfies c (conjAt R c.loc)

/-- The negative-example pass of `sorcar::reduce_predicates_all`: for every
misclassified negative point, move all its relevant predicates from
`X_minus_R[id]` to `R[id]`.  The two asserts of that loop are modelled as
errors. -/
def negPassAll (X : List (Finset ℕ)) :
    List (Finset ℕ) → List (Finset ℕ) → List datapoint →
      Except String (List (Finset ℕ) × List (Finset ℕ))
  | R, XmR, [] => .ok (R, XmR)
  | R, XmR, dp :: rest =>
    if dp.is_classified && !dp.classification && satisfies dp (conjAt R dp.loc) then
      if satisfies dp (conjAt X dp.loc) then
        .error "assertion failed: !satisfies(dp, X[id])"
      else
        let zeros := zerosOf XmR dp dp.loc
        let R' := updAt R dp.loc (fun s => s ∪ zeros)
        if (conjAt R dp.loc).card < (conjAt R' dp.loc).card then
          negPassAll X R' (updAt XmR dp.loc (fun s => s \ zeros)) rest
        else
          .error "assertion failed: size_before < R[id].size()"
    else
      negPassAll X R XmR rest

/-- The active-constraint step of `sorcar::reduce_predicates_all`: add every
relevant predicate of every premise. -/
def addAllPremZeros : List (Finset ℕ) → List (Finset ℕ) → List datapoint →
    List (Finset ℕ) × List (Finset ℕ)
  | R, XmR, [] => (R, XmR)
  | R, XmR, dp :: rest =>
    let zeros := zerosOf XmR dp dp.loc
    addAllPremZeros (updAt R dp.loc (fun s => s ∪ zeros))
      (updAt XmR dp.loc (fun s => s \ zeros)) rest

/-- One walk over the Horn work list in `sorcar::reduce_predicates_all`:
vacuous constraints (failing premise) are erased, satisfied ones are kept,
active ones contribute all their relevant predicates and are erased.  The
final component records whether an active constraint was met (the negation of
the source's `added_relevant_predicate`). -/
def hornPassAll : List (Finset ℕ) → List (Finset ℕ) → List horn_constraint →
    List (Finset ℕ) × List (Finset ℕ) × List horn_constraint × Bool
  | R, XmR, [] => (R, XmR, [], false)
  | R, XmR, hc :: rest =>
    if !(lhsSat R hc) then
      hornPassAll R XmR rest
    else if conclSat R hc then
      let res := hornPassAll R XmR rest
      (res.1, res.2.1, hc :: res.2.2.1, res.2.2.2)
    else
      let step := addAllPremZeros R XmR hc.premises
      let res := hornPassAll step.1 step.2 rest
      (res.1, res.2.1, res.2.2.1, true)

/-- The fixed-point of the Horn pass of `sorcar::reduce_predicates_all`:
repeat the walk while an active constraint was met.  Every repeat has erased
at least one constraint from the work list (`hornPassAll_kept_le`), so at the
canonical fuel `hcs.length + 1` the fuel never runs out; exhaustion returns
the current state unchanged. -/
def fixAll : ℕ → List (Finset ℕ) → List (Finset ℕ) → List horn_constraint →
    List (Finset ℕ) × List (Finset ℕ)
  | 0, R, XmR, _ => (R, XmR)
  | fuel + 1, R, XmR, hcs =>
    let res := hornPassAll R XmR hcs
    if res.2.2.2 then fixAll fuel res.1 res.2.1 res.2.2.1
    else (res.1, res.2.1)

/-- `sorcar::reduce_predicates_all`. -/
def reduce_predicates_all (datapoints : List datapoint)
    (horn_constraints : List horn_constraint) (X R : List (Finset ℕ)) :
    Except String (List (Finset ℕ)) :=
  if X.isEmpty then .error "X must not be empty"
  else if X.length ≠ R.length then .error "R and X must be of same size"
  else
    let prep := prepare_sets X R
    match negPassAll X prep.1 prep.2 datapoints with
    | .error e => .error e
    | .ok (R2, XmR2) =>
      let res := fixAll (horn_constraints.length + 1) R2 XmR2 horn_constraints
      if is_consistent res.1 datapoints horn_constraints then .ok res.1
      else .error "assertion failed: is_consistent(R, datapoints, horn_constraints)"

/-- The negative-example pass of `sorcar::reduce_predicates_first`: add only
the first (smallest-index) relevant predicate; the post-loop size assert is
modelled as an error. -/
def negPassFirst : List (Finset ℕ) → List (Finset ℕ) → List datapoint →
    Except String (List (Finset ℕ) × List (Finset ℕ))
  | R, XmR, [] => .ok (R, XmR)
  | R, XmR, dp :: rest =>
    if dp.is_classified && !dp.classification && satisfies dp (conjAt R dp.loc) then
      let zeros := zerosOf XmR dp dp.loc
      if hz : zeros.Nonempty then
        let z := zeros.min' hz
        let R' := updAt R dp.loc (fun s => insert z s)
        if (conjAt R dp.loc).card < (conjAt R' dp.loc).card then
          negPassFirst R' (updAt XmR dp.loc (fun s => s.erase z)) rest
        else
          .error "assertion failed: size_before < R[id].size()"
      else
        .error "assertion failed: size_before < R[id].size()"
    else
      negPassFirst R XmR rest

/-- The first relevant predicate over a premise list (premises in order, the
iteration over `X_minus_R[id]` in ascending order): location and index. -/
def firstPremZero (XmR : List (Finset ℕ)) : List datapoint → Option (ℕ × ℕ)
  | [] => none
  | p :: rest =>
    let zeros := zerosOf XmR p p.loc
    if hz : zeros.Nonempty then some (p.loc, zeros.min' hz)
    else firstPremZero XmR rest

/-- One walk over the Horn work list in `sorcar::reduce_predicates_first`:
like the `all` variant, but an active constraint adds only the first relevant
predicate of the first premise that has one (`assert (added)` on failure). -/
def hornPassFirst : List (Finset ℕ) → List (Finset ℕ) → List horn_constraint →
    Except String (List (Finset ℕ) × List (Finset ℕ) × List horn_constraint × Bool)
  | R, XmR, [] => .ok (R, XmR, [], false)
  | R, XmR, hc :: rest =>
    if !(lhsSat R hc) then
      hornPassFirst R XmR rest
    else if conclSat R hc then
      match hornPassFirst R XmR rest with
      | .error e => .error e
      | .ok (R', XmR', kept, flag) => .ok (R', XmR', hc :: kept, flag)
    else
      match firstPremZero XmR hc.premises with
      | none => .error "assertion failed: added"
      | some (id, z) =>
        match hornPassFirst (updAt R id (fun s => insert z s))
            (updAt XmR id (fun s => s.erase z)) rest with
        | .error e => .error e
        | .ok (R', XmR', kept, flag) => .ok (R', XmR', kept, true)

/-- The fixed-point of the Horn pass of `sorcar::reduce_predicates_first`.
As for `fixAll`, the canonical fuel `hcs.length + 1` never runs out
(`hornPassFirst_kept_le`); exhaustion returns the current state unchanged. -/
def fixFirst : ℕ → List (Finset ℕ) → List (Finset ℕ) → List horn_constraint →
    Except String (List (Finset ℕ) × List (Finset ℕ))
  | 0, R, XmR, _ => .ok (R, XmR)
  | fuel + 1, R, XmR, hcs =>
    match hornPassFirst R XmR hcs with
    | .error e => .error e
    | .ok (R', XmR', kept, flag) =>
      if flag then fixFirst fuel R' XmR' kept else .ok (R', XmR')

/-- `sorcar::reduce_predicates_first`. -/
def reduce_predicates_first (datapoints : List datapoint)
    (horn_constraints : List horn_constraint) (X R : List (Finset ℕ)) :
    Except String (List (Finset ℕ)) :=
  if X.isEmpty then .error "X must not be empty"
  else if X.length ≠ R.length then .error "R and X must be of same size"
  else
    let prep := prepare_sets X R
    match negPassFirst prep.1 prep.2 datapoints with
    | .error e => .error e
    | .ok (R2, XmR2) =>
      match fixFirst (horn_constraints.length + 1) R2 XmR2 horn_constraints with
      | .error e => .error e
      | .ok (R3, _) =>
        if is_consistent R3 datapoints horn_constraints then .ok R3
        else .error "assertion failed: is_consistent(R, datapoints, horn_constraints)"

/-! ## The greedy reducer (`sorcar::reduce_predicates_greedy`)

The scratch structure `predicates` maps, per location, a candidate predicate
index to the set of misclassified negative points and the set of active Horn
constraints it would fix.  Data points and Horn constraints are identified by
their index in the input lists (the source stores pointers into those arrays;
pointer identity is index identity).  `std::map` iteration is in ascending key
order, modelled by an ordered association list. -/

instance : Inhabited datapoint := ⟨⟨[], 0, false, false⟩⟩

/-- Ordered association list from a predicate index to the pair of
(negative-point indices, Horn-constraint indices) it would fix. -/
abbrev PMap := List (ℕ × Finset ℕ × Finset ℕ)

/-- `map[p]` access-and-update: default-construct an empty entry when the key
is absent (ordered insertion), otherwise update in place. -/
def pmapSet : PMap → ℕ → (Finset ℕ × Finset ℕ → Finset ℕ × Finset ℕ) → PMap
  | [], p, f => [(p, f (∅, ∅))]
  | (q, e) :: rest, p, f =>
    if p < q then (p, f (∅, ∅)) :: (q, e) :: rest
    else if p = q then (q, f e) :: rest
    else (q, e) :: pmapSet rest p f

/-- `map.at(p)` update: modify the entry of a present key (the source only
calls `.at` on keys that exist; an absent key leaves the map unchanged). -/
def pmapAdjust : PMap → ℕ → (Finset ℕ × Finset ℕ → Finset ℕ × Finset ℕ) → PMap
  | [], _, _ => []
  | (q, e) :: rest, p, f =>
    if p = q then (q, f e) :: rest else (q, e) :: pmapAdjust rest p f

/-- `map.at(p)` read. -/
def pmapGet : PMap → ℕ → Finset ℕ × Finset ℕ
  | [], _ => (∅, ∅)
  | (q, e) :: rest, p => if p = q then e else pmapGet rest p

/-- `map.erase(p)`. -/
def pmapErase : PMap → ℕ → PMap
  | [], _ => []
  | (q, e) :: rest, p => if p = q then rest else (q, e) :: pmapErase rest p

/-- Update the candidate map of one location. -/
def predsSet (preds : List PMap) (i : ℕ) (f : PMap → PMap) : List PMap :=
  preds.set i (f (preds.getD i []))

/-- Record a misclassified negative data point (by index) under each of its
relevant predicates. -/
def addNegCandidates (XmR : List (Finset ℕ)) (preds : List PMap) (idx : ℕ)
    (dp : datapoint) : List PMap :=
  (ascElems (zerosOf XmR dp dp.loc)).foldl
    (fun ps p => predsSet ps dp.loc (fun m => pmapSet m p (fun e => (insert idx e.1, e.2))))
    preds

/-- The negative-example phase of the greedy reducer: collect, for every
misclassified negative data point, its relevant predicates (no mutation of
`R` here). -/
def negPhaseGreedy (R XmR : List (Finset ℕ)) (datapoints : List datapoint)
    (locations : ℕ) : List PMap :=
  datapoints.enum.foldl
    (fun ps pr =>
      if pr.2.is_classified && !pr.2.classification && satisfies pr.2 (conjAt R pr.2.loc) then
        addNegCandidates XmR ps pr.1 pr.2
      else ps)
    (List.replicate locations [])

/-- Record an unsatisfied Horn constraint (by index) under each relevant
predicate of each of its premises. -/
def addHornCandidates (XmR : List (Finset ℕ)) (preds : List PMap) (hcIdx : ℕ)
    (hc : horn_constraint) : List PMap :=
  hc.premises.foldl
    (fun ps dp =>
      (ascElems (zerosOf XmR dp dp.loc)).foldl
        (fun ps' p => predsSet ps' dp.loc (fun m => pmapSet m p (fun e => (e.1, insert hcIdx e.2))))
        ps)
    preds

/-- The Horn-candidate phase of one outer greedy iteration; the Bool records
whether some Horn constraint was active (which clears the source's `done`). -/
def hornPhaseGreedy (R XmR : List (Finset ℕ)) (horn_constraints : List horn_constraint)
    (preds : List PMap) : List PMap × Bool :=
  horn_constraints.enum.foldl
    (fun acc pr =>
      if lhsSat R pr.2 && !(conclSat R pr.2) then
        (addHornCandidates XmR acc.1 pr.1 pr.2, true)
      else acc)
    (preds, false)

/-- The argmax scan of the greedy inner loop: the candidate with the strictly
largest `|fixed negatives| + |fixed Horns|`, first hit in iteration order
(location ascending, then key ascending); `found` is false when every
candidate has value 0. -/
def bestOf (preds : List PMap) : ℕ × ℕ × ℕ × Bool :=
  preds.enum.foldl
    (fun acc pr =>
      pr.2.foldl
        (fun acc' qe =>
          if qe.2.1.card + qe.2.2.card > acc'.1 then
            (qe.2.1.card + qe.2.2.card, pr.1, qe.1, true)
          else acc')
        acc)
    (0, 0, 0, false)

/-- After picking a predicate, delete a fixed negative point from every other
candidate entry that mentions it. -/
def removeDpCandidates (datapoints : List datapoint) (XmR : List (Finset ℕ))
    (preds : List PMap) (dpIdx : ℕ) : List PMap :=
  let dp := datapoints.getD dpIdx default
  (ascElems (zerosOf XmR dp dp.loc)).foldl
    (fun ps p => predsSet ps dp.loc (fun m => pmapAdjust m p (fun e => (e.1.erase dpIdx, e.2))))
    preds

/-- After picking a predicate, delete a fixed Horn constraint from every other
candidate entry that mentions it. -/
def removeHcCandidates (horn_constraints : List horn_constraint)
    (XmR : List (Finset ℕ)) (preds : List PMap) (hcIdx : ℕ) : List PMap :=
  let hc := horn_constraints.getD hcIdx ⟨[], none⟩
  hc.premises.foldl
    (fun ps dp =>
      (ascElems (zerosOf XmR dp dp.loc)).foldl
        (fun ps' p => predsSet ps' dp.loc (fun m => pmapAdjust m p (fun e => (e.1, e.2.erase hcIdx))))
        ps)
    preds

/-- The greedy inner loop: repeatedly take the best candidate, erase the
negatives and Horns it fixes from all other entries, record it, and delete its
entry.  Every iteration deletes a present key, so a fuel of (total key count
plus one) never runs out. -/
def greedyPick (datapoints : List datapoint) (horn_constraints : List horn_constraint)
    (XmR : List (Finset ℕ)) :
    ℕ → List PMap → List (ℕ × ℕ) → List PMap × List (ℕ × ℕ)
  | 0, preds, newRel => (preds, newRel)
  | fuel + 1, preds, newRel =>
    let best := bestOf preds
    if best.2.2.2 then
      let e := pmapGet (preds.getD best.2.1 []) best.2.2.1
      let preds1 := (ascElems e.1).foldl
        (fun ps d => removeDpCandidates datapoints XmR ps d) preds
      let preds2 := (ascElems e.2).foldl
        (fun ps h => removeHcCandidates horn_constraints XmR ps h) preds1
      let preds3 := predsSet preds2 best.2.1 (fun m => pmapErase m best.2.2.1)
      greedyPick datapoints horn_constraints XmR fuel preds3
        (newRel ++ [(best.2.1, best.2.2.1)])
    else (preds, newRel)

/-- The debug check after the inner loop: every surviving candidate entry
must be empty. -/
def allEntriesEmpty (preds : List PMap) : Bool :=
  preds.all (fun m => m.all (fun qe => qe.2.1 = ∅ ∧ qe.2.2 = ∅))

/-- Insert the newly picked relevant predicates into `R` and remove them from
`X_minus_R`. -/
def applyRel (R XmR : List (Finset ℕ)) (newRel : List (ℕ × ℕ)) :
    List (Finset ℕ) × List (Finset ℕ) :=
  newRel.foldl
    (fun acc pr => (updAt acc.1 pr.1 (fun s => insert pr.2 s),
                    updAt acc.2 pr.1 (fun s => s.erase pr.2)))
    (R, XmR)

/-- The outer fixed-point loop of the greedy reducer.  The source's loop need
not terminate when `X` is inconsistent with the data (an active Horn
constraint with no relevant predicate clears `done` forever); the fuel models
that, with exhaustion as an error. -/
def greedyLoop (datapoints : List datapoint) (horn_constraints : List horn_constraint) :
    ℕ → List (Finset ℕ) → List (Finset ℕ) → List PMap →
      Except String (List (Finset ℕ) × List (Finset ℕ))
  | 0, _, _, _ => .error "greedy fixed-point did not terminate"
  | fuel + 1, R, XmR, preds =>
    let hp := hornPhaseGreedy R XmR horn_constraints preds
    let innerFuel := (hp.1.map List.length).sum + 1
    let pick := greedyPick datapoints horn_constraints XmR innerFuel hp.1 []
    if allEntriesEmpty pick.1 then
      let app := applyRel R XmR pick.2
      if !hp.2 && pick.2.isEmpty then .ok (app.1, app.2)
      else greedyLoop datapoints horn_constraints fuel app.1 app.2 pick.1
    else
      .error "assertion failed: pair.second.first.empty() && pair.second.second.empty()"

/-- `sorcar::reduce_predicates_greedy`. -/
def reduce_predicates_greedy (datapoints : List datapoint)
    (horn_constraints : List horn_constraint) (X R : List (Finset ℕ)) :
    Except String (List (Finset ℕ)) :=
  if X.isEmpty then .error "X must not be empty"
  else if X.length ≠ R.length then .error "R and X must be of same size"
  else
    let prep := prepare_sets X R
    let preds0 := negPhaseGreedy prep.1 prep.2 datapoints X.length
    let fuel0 := (X.map Finset.card).sum + horn_constraints.length + 2
    match greedyLoop datapoints horn_constraints fuel0 prep.1 prep.2 preds0 with
    | .error e => .error e
    | .ok (R3, _) =>
      if is_consistent R3 datapoints horn_constraints then .ok R3
      else .error "assertion failed: is_consistent(R, datapoints, horn_constraints)"

/-! ## The minimal reducer (`sorcar::reduce_predicates_minimal`)

The source creates one Z3 Boolean variable per candidate predicate (location
order, then ascending index within `X_minus_R[i]`), encodes the violated
negatives and Horn constraints as clauses, and searches for a model of
cardinality at most `k`, increasing `k` from 1.  The external Z3 call is
abstracted as an oracle that, for each bound `k`, yields either a model (an
assignment of the decision variables) or `none` (unsatisfiable); everything
around the call — the variable numbering, the `k` search with its failure
throw, the augmentation of `R` from the model, and the final consistency
assert — is modelled from the source. -/

/-- The Z3 variable number of candidate predicate `p` at location `i`
(variables are created in location order, ascending within a location). -/
def varId (XmR : List (Finset ℕ)) (i p : ℕ) : ℕ :=
  ((XmR.take i).map Finset.card).sum + ((conjAt XmR i).filter (fun q => q < p)).card

/-- Add to `R` every candidate predicate whose variable is true in the model. -/
def applyModel (XmR R : List (Finset ℕ)) (m : ℕ → Bool) : List (Finset ℕ) :=
  (List.range R.length).map
    (fun i => conjAt R i ∪ (conjAt XmR i).filter (fun p => m (varId XmR i p)))

/-- The `k = 1, 2, …` search loop: ask the solver for a model under the
current cardinality bound; on `unsat`, fail once `k ≥ var_count`, else retry
with `k + 1`.  `remaining` counts the retries left (`var_count - k`). -/
def minimalSearch (oracle : ℕ → Option (ℕ → Bool)) (XmR R : List (Finset ℕ)) :
    ℕ → ℕ → Except String (List (Finset ℕ))
  | k, remaining =>
    match oracle k with
    | some m => .ok (applyModel XmR R m)
    | none =>
      match remaining with
      | 0 => .error "k >= var_count"
      | r + 1 => minimalSearch oracle XmR R (k + 1) r

/-- `sorcar::reduce_predicates_minimal`, parameterised by the solver oracle. -/
def reduce_predicates_minimal (oracle : ℕ → Option (ℕ → Bool))
    (datapoints : List datapoint) (horn_constraints : List horn_constraint)
    (X R : List (Finset ℕ)) : Except String (List (Finset ℕ)) :=
  if X.isEmpty then .error "X must not be empty"
  else if X.length ≠ R.length then .error "R and X must be of same size"
  else
    let prep := prepare_sets X R
    let var_count := (prep.2.map Finset.card).sum
    match minimalSearch oracle prep.2 prep.1 1 (var_count - 1) with
    | .error e => .error e
    | .ok R3 =>
      if is_consistent R3 datapoints horn_constraints then .ok R3
      else .error "assertion failed: is_consistent(R, datapoints, horn_constraints)"

/-! ## LTF-to-Boolean lowering (`winnow::ltf2bool`)

The source emits nested JSON; the emitted shape is a binary decision tree
whose internal nodes carry an attribute index, whose first child is taken
when the attribute is 0 and whose second child when it is 1.  `BTree` is that
shape.  The weights are `float` in the source but are summed into `int`
accumulators inside `ltf2bool`; they are modelled as integers (`ℤ`), on which
the source's float-to-int truncations are exact. -/

/-- The decision-tree shape of the JSON emitted by `winnow::ltf2bool`. -/
inductive BTree where
  | leaf (classification : Bool)
  | node (attr : ℕ) (zero one : BTree)
deriving DecidableEq, Repr

/-- The scan of `winnow::ltf2bool` over the live index set `J` (a
`std::set`, ascending order): running sum, strict maximum and its first
index, starting from `sum = 0, max = -1, idx = -1`. -/
def sumMax (w : ℕ → ℤ) (J : Finset ℕ) : ℤ × ℤ × ℤ :=
  (ascElems J).foldl
    (fun acc j =>
      (acc.1 + w j, if w j > acc.2.1 then (w j, (j : ℤ)) else acc.2))
    (0, -1, -1)

/-- `winnow::ltf2bool`: residual threshold already met gives `leaf true`;
residual threshold unreachable (`sum ≤ theta`) gives `leaf false`; otherwise
split on the largest-weight live attribute, keeping the residual threshold in
the attribute-is-0 child and subtracting the weight in the attribute-is-1
child.  Each split removes the chosen index from `J`, so the canonical fuel
`J.card + 1` never runs out. -/
def ltf2bool (w : ℕ → ℤ) : ℕ → Finset ℕ → ℤ → BTree
  | 0, _, _ => .leaf false
  | fuel + 1, J, theta =>
    if theta ≤ 0 then .leaf true
    else
      let sm := sumMax w J
      if sm.1 > theta then
        .node sm.2.2.toNat
          (ltf2bool w fuel (J.erase sm.2.2.toNat) theta)
          (ltf2bool w fuel (J.erase sm.2.2.toNat) (theta - sm.2.1))
      else .leaf false

/-- Evaluation of the emitted decision tree on a Boolean input: first child
when the attribute is 0, second child when it is 1. -/
def accepts : BTree → (ℕ → Bool) → Bool
  | .leaf b, _ => b
  | .node a zero one, x => if x a then accepts one x else accepts zero x

/-- `Σ_{j ∈ J} w_j x_j`. -/
def ltfSum (w : ℕ → ℤ) (J : Finset ℕ) (x : ℕ → Bool) : ℤ :=
  J.sum (fun j => if x j then w j else 0)

/-! ## Winnow (`winnow` class)

Weights, threshold and learning rate are `float` in the source; they are
modelled as rationals (`ℚ`), on which the multiplicative updates are exact
and `0` is preserved exactly, as it is in IEEE arithmetic. -/

/-- The `winnow` learner state. -/
structure winnow where
  weights : List ℚ
  theta : ℚ
  lr : ℚ
deriving DecidableEq, Repr

instance : Inhabited winnow := ⟨⟨[], 0, 0⟩⟩

/-- The prediction sum of `winnow::predict`:
`Σ_{i < |dp.bits|} weights[i] · dp.bits[i]`. -/
def winnow.predictSum (w : winnow) (dp : datapoint) : ℚ :=
  (List.range dp.bits.length).foldl
    (fun s i => s + w.weights.getD i 0 * (if dp.bits.getD i false then 1 else 0)) 0

/-- `winnow::predict`: `sum ≥ theta`. -/
def winnow.predict (w : winnow) (dp : datapoint) : Bool :=
  decide (w.theta ≤ w.predictSum dp)

/-- `winnow::update`: on a false positive divide the weights of the 1-bits by
`lr`, on a false negative multiply them by `lr`. -/
def winnow.update (w : winnow) (dp : datapoint) (prediction : Bool) : winnow :=
  { w with
    weights := w.weights.mapIdx (fun i wi =>
      if i < dp.bits.length then
        if !dp.classification && prediction && dp.bits.getD i false then wi / w.lr
        else if dp.classification && !prediction && dp.bits.getD i false then wi * w.lr
        else wi
      else wi) }

/-- `winnow::train_once`: one epoch of predict-then-update. -/
def winnow.train_once (w : winnow) (dps : List datapoint) : winnow :=
  dps.foldl (fun w' dp => w'.update dp (w'.predict dp)) w

/-- `winnow::check_acc`: 100% accuracy on the supplied examples. -/
def winnow.check_acc (w : winnow) (dps : List datapoint) : Bool :=
  dps.all (fun dp => w.predict dp == dp.classification)

/-- `winnow::train`: epoch until fully accurate.  The source's while loop
need not terminate (non-separable data); the fuel counts epochs. -/
def winnow.train : ℕ → winnow → List datapoint → winnow
  | 0, w, _ => w
  | fuel + 1, w, dps =>
    if w.check_acc dps then w else winnow.train fuel (w.train_once dps) dps

/-- The alphabet-masking loop of `winnow::execute_algorithm`: for every
location `i`, zero the weight of every index `j` not in `X[i]`. -/
def maskWeights (w_objs : List winnow) (X : List (Finset ℕ)) : List winnow :=
  w_objs.mapIdx (fun i w =>
    { w with
      weights := w.weights.mapIdx (fun j wj =>
        if j ∈ conjAt X i then wj else 0) })

/-- Scenario data points of the specification (§8). -/
def dpS1a : datapoint := ⟨[true, true, false, true], 0, true, true⟩

def dpS1b : datapoint := ⟨[true, false, false, true], 0, true, true⟩

def dpS4 : datapoint := ⟨[true, true, false, false], 0, true, true⟩

def posS2 : datapoint := ⟨[true, true, true, true], 0, true, true⟩

def negS2 : datapoint := ⟨[true, true, false, true], 0, true, false⟩

/-! ## Invariant predicates for the Horndini proofs -/

/-- A working-copy Horn constraint descends from an original one: same
conclusion, premises a subset, every erased premise satisfying `H`. -/
def GoodHC (H : List (Finset ℕ)) (hcs0 : List horn_constraint)
    (hc' : horn_constraint) : Prop :=
  ∃ hc ∈ hcs0, hc.conclusion = hc'.conclusion ∧
    (∀ p ∈ hc'.premises, p ∈ hc.premises) ∧
    (∀ p ∈ hc.premises, p ∈ hc'.premises ∨ satisfies p (conjAt H p.loc) = true)

/-- The per-original-constraint invariant of the Horndini loop: either a
descendant of the constraint is still in the working list (with erased
premises satisfying the current conjunctions), or the constraint has fired
and its conclusion is queued or already satisfied. -/
def HInv (hc0 : horn_constraint) (conj : List (Finset ℕ))
    (hcs : List horn_constraint) (positive : List datapoint) : Prop :=
  (∃ hc' ∈ hcs, hc'.conclusion = hc0.conclusion ∧
    (∀ p ∈ hc'.premises, p ∈ hc0.premises) ∧
    (∀ p ∈ hc0.premises, p ∈ hc'.premises ∨ satisfies p (conjAt conj p.loc) = true))
  ∨ (∃ c, hc0.conclusion = some c ∧
      (c ∈ positive ∨ satisfies c (conjAt conj c.loc) = true))

/-! ## Theorems

Helper lemmas first (properties of `satisfies`, the per-location update
helpers, the firing pass, growth of `R` through the reducer passes, the
Horndini loop invariants, the LTF scan, and Winnow's masking), then one
theorem per specification claim, each marked with its claim id. -/

theorem satisfies_iff {dp : datapoint} {C : Finset ℕ} :
    satisfies dp C = true ↔ ∀ c ∈ C, dp.bits.getD c false = true := by
  simp [satisfies]

theorem satisfies_empty (dp : datapoint) : satisfies dp (∅ : Finset ℕ) = true := by
  simp [satisfies]

/-- `satisfies` is antitone in the conjunction: shrinking the conjunction
preserves satisfaction. -/
theorem satisfies_anti {dp : datapoint} {C C' : Finset ℕ} (hsub : C' ⊆ C)
    (h : satisfies dp C = true) : satisfies dp C' = true := by
  rw [satisfies_iff] at h ⊢
  exact fun c hc => h c (hsub hc)

theorem satisfies_inter_left (dp : datapoint) (C C' : Finset ℕ)
    (h : satisfies dp C = true) : satisfies dp (C ∩ C') = true :=
  satisfies_anti Finset.inter_subset_left h

theorem mem_ascElems {s : Finset ℕ} {a : ℕ} : a ∈ ascElems s ↔ a ∈ s := by
  rw [ascElems, List.mem_filter]
  simp only [List.mem_range, decide_eq_true_eq]
  constructor
  · exact fun h => h.2
  · intro h
    refine ⟨?_, h⟩
    have h2 : id a ≤ s.sup id := Finset.le_sup h
    rw [id] at h2
    omega

theorem ascElems_nodup (s : Finset ℕ) : (ascElems s).Nodup :=
  (List.nodup_range _).filter _

theorem ascElems_perm (s : Finset ℕ) : (ascElems s).Perm s.toList := by
  apply List.perm_of_nodup_nodup_toFinset_eq (ascElems_nodup s) s.nodup_toList
  ext a
  simp only [List.mem_toFinset, mem_ascElems, Finset.mem_toList]

theorem is_consistent_iff {predicates : List (Finset ℕ)} {datapoints : List datapoint}
    {horn_constraints : List horn_constraint} :
    is_consistent predicates datapoints horn_constraints = true ↔
      consistent_spec predicates datapoints horn_constraints := by
  constructor
  · intro h
    rw [is_consistent, Bool.and_eq_true, List.all_eq_true, List.all_eq_true] at h
    obtain ⟨hdp, hhc⟩ := h
    refine ⟨?_, ?_, ?_⟩
    · intro dp hmem hcl hpos
      have := hdp dp hmem
      rw [hcl] at this
      simp only [Bool.not_true, Bool.false_or, beq_iff_eq] at this
      rw [this, hpos]
    · intro dp hmem hcl hneg
      have := hdp dp hmem
      rw [hcl] at this
      simp only [Bool.not_true, Bool.false_or, beq_iff_eq] at this
      rw [this, hneg]
    · intro hc hmem hprem
      have := hhc hc hmem
      have hall : (hc.premises.all fun p => satisfies p (conjAt predicates p.loc)) = true := by
        rw [List.all_eq_true]; exact hprem
      rw [hall] at this
      simp only [Bool.not_true, Bool.false_or] at this
      cases hconc : hc.conclusion with
      | none => rw [hconc] at this; exact absurd this (by simp)
      | some c => rw [hconc] at this; exact ⟨c, rfl, this⟩
  · intro ⟨hpos, hneg, hhorn⟩
    rw [is_consistent, Bool.and_eq_true, List.all_eq_true, List.all_eq_true]
    constructor
    · intro dp hmem
      cases hcl : dp.is_classified with
      | false => simp
      | true =>
        simp only [Bool.not_true, Bool.false_or, beq_iff_eq]
        cases hc : dp.classification with
        | true => exact hpos dp hmem hcl hc
        | false => exact hneg dp hmem hcl hc
    · intro hc hmem
      cases hall : (hc.premises.all fun p => satisfies p (conjAt predicates p.loc)) with
      | false => simp
      | true =>
        simp only [Bool.not_true, Bool.false_or]
        rw [List.all_eq_true] at hall
        obtain ⟨c, hcc, hcs⟩ := hhorn hc hmem hall
        rw [hcc]
        exact hcs

theorem getD_set_self (l : List (Finset ℕ)) (n : ℕ) (a : Finset ℕ) :
    (l.set n a).getD n ∅ = if n < l.length then a else l.getD n ∅ := by
  induction l generalizing n with
  | nil => simp
  | cons x xs ih =>
    cases n with
    | zero => simp
    | succ m => simpa using ih m

theorem getD_set_ne (l : List (Finset ℕ)) (n k : ℕ) (a : Finset ℕ) (h : k ≠ n) :
    (l.set n a).getD k ∅ = l.getD k ∅ := by
  induction l generalizing n k with
  | nil => simp
  | cons x xs ih =>
    cases n with
    | zero =>
      cases k with
      | zero => exact absurd rfl h
      | succ m => simp
    | succ m =>
      cases k with
      | zero => simp
      | succ j => simpa using ih m j (fun hh => h (by rw [hh]))

theorem updAt_length (l : List (Finset ℕ)) (k : ℕ) (f : Finset ℕ → Finset ℕ) :
    (updAt l k f).length = l.length := by
  simp [updAt]

theorem conjAt_updAt_grow {l : List (Finset ℕ)} {k : ℕ} {f : Finset ℕ → Finset ℕ}
    (hf : ∀ s, s ⊆ f s) (j : ℕ) : conjAt l j ⊆ conjAt (updAt l k f) j := by
  by_cases hjk : j = k
  · subst hjk
    rw [conjAt, conjAt, updAt, getD_set_self]
    split
    · exact hf _
    · exact Finset.Subset.refl _
  · rw [conjAt, conjAt, updAt, getD_set_ne _ _ _ _ hjk]

theorem conjAt_updAt_self {l : List (Finset ℕ)} {k : ℕ} {f : Finset ℕ → Finset ℕ}
    (hk : k < l.length) : conjAt (updAt l k f) k = f (conjAt l k) := by
  rw [conjAt, updAt, getD_set_self]
  simp [hk, conjAt]

theorem conjAt_updAt_ne {l : List (Finset ℕ)} {k j : ℕ} {f : Finset ℕ → Finset ℕ}
    (h : j ≠ k) : conjAt (updAt l k f) j = conjAt l j := by
  rw [conjAt, updAt, getD_set_ne _ _ _ _ h, conjAt]

theorem conjAt_updAt_out {l : List (Finset ℕ)} {k : ℕ} {f : Finset ℕ → Finset ℕ}
    (h : ¬ k < l.length) : conjAt (updAt l k f) k = conjAt l k := by
  rw [conjAt, conjAt, updAt, getD_set_self, if_neg h]

theorem prepare_walk_mem (R X : List ℕ) (hR : List.Sorted (· < ·) R)
    (hX : List.Sorted (· < ·) X) :
    (∀ a, a ∈ (prepare_walk R X).1 ↔ a ∈ R ∧ a ∈ X) ∧
      (∀ a, a ∈ (prepare_walk R X).2 ↔ a ∈ X ∧ a ∉ R) := by
  induction R, X using prepare_walk.induct with
  | case1 X => simp [prepare_walk]
  | case2 r R => simp [prepare_walk]
  | case3 r R x X hlt ih =>
    rw [List.sorted_cons] at hR
    have := ih hR.2 hX
    rw [prepare_walk, if_pos hlt]
    constructor
    · intro a
      rw [(this.1 a)]
      constructor
      · exact fun ⟨h1, h2⟩ => ⟨List.mem_cons_of_mem _ h1, h2⟩
      · rintro ⟨h1, h2⟩
        rcases List.mem_cons.mp h1 with h | h
        · subst h
          rcases List.mem_cons.mp h2 with h' | h'
          · omega
          · rw [List.sorted_cons] at hX
            have := hX.1 a h'
            omega
        · exact ⟨h, h2⟩
    · intro a
      rw [(this.2 a)]
      constructor
      · rintro ⟨h1, h2⟩
        refine ⟨h1, fun hmem => h2 ?_⟩
        rcases List.mem_cons.mp hmem with h | h
        · subst h
          rcases List.mem_cons.mp h1 with h' | h'
          · omega
          · rw [List.sorted_cons] at hX
            have := hX.1 a h'
            omega
        · exact h
      · rintro ⟨h1, h2⟩
        exact ⟨h1, fun hmem => h2 (List.mem_cons_of_mem _ hmem)⟩
  | case4 r R x X hlt hlt' ih =>
    rw [List.sorted_cons] at hX
    have := ih hR hX.2
    rw [prepare_walk, if_neg hlt, if_pos hlt']
    constructor
    · intro a
      simp only
      rw [(this.1 a)]
      constructor
      · exact fun ⟨h1, h2⟩ => ⟨h1, List.mem_cons_of_mem _ h2⟩
      · rintro ⟨h1, h2⟩
        rcases List.mem_cons.mp h2 with h | h
        · subst h
          rcases List.mem_cons.mp h1 with h' | h'
          · omega
          · rw [List.sorted_cons] at hR
            have := hR.1 a h'
            omega
        · exact ⟨h1, h⟩
    · intro a
      constructor
      · intro hmem
        rcases List.mem_cons.mp hmem with h | h
        · rw [h]
          refine ⟨List.mem_cons_self _ _, fun hmem' => ?_⟩
          rcases List.mem_cons.mp hmem' with h' | h'
          · omega
          · rw [List.sorted_cons] at hR
            have := hR.1 x h'
            omega
        · obtain ⟨h1, h2⟩ := (this.2 a).mp h
          exact ⟨List.mem_cons_of_mem _ h1, h2⟩
      · rintro ⟨h1, h2⟩
        rcases List.mem_cons.mp h1 with h | h
        · rw [h]
          exact List.mem_cons_self _ _
        · exact List.mem_cons_of_mem _ ((this.2 a).mpr ⟨h, h2⟩)
  | case5 r R x X hlt hlt' ih =>
    have hrx : r = x := by omega
    rw [List.sorted_cons] at hR hX
    have := ih hR.2 hX.2
    rw [prepare_walk, if_neg hlt, if_neg hlt']
    constructor
    · intro a
      constructor
      · intro hmem
        rcases List.mem_cons.mp hmem with h | h
        · refine ⟨?_, ?_⟩
          · rw [h]
            exact List.mem_cons_self _ _
          · rw [h, hrx]
            exact List.mem_cons_self _ _
        · obtain ⟨h1, h2⟩ := (this.1 a).mp h
          exact ⟨List.mem_cons_of_mem _ h1, List.mem_cons_of_mem _ h2⟩
      · rintro ⟨h1, h2⟩
        rcases List.mem_cons.mp h1 with h | h
        · rw [h]
          exact List.mem_cons_self _ _
        · rcases List.mem_cons.mp h2 with h' | h'
          · have := hR.1 a h
            omega
          · exact List.mem_cons_of_mem _ ((this.1 a).mpr ⟨h, h'⟩)
    · intro a
      constructor
      · intro hmem
        obtain ⟨h1, h2⟩ := (this.2 a).mp hmem
        refine ⟨List.mem_cons_of_mem _ h1, fun hmem' => ?_⟩
        rcases List.mem_cons.mp hmem' with h' | h'
        · have := hX.1 a h1
          omega
        · exact h2 h'
      · rintro ⟨h1, h2⟩
        rcases List.mem_cons.mp h1 with h | h
        · exfalso
          apply h2
          rw [h, ← hrx]
          exact List.mem_cons_self _ _
        · exact (this.2 a).mpr ⟨h, fun hmem => h2 (List.mem_cons_of_mem _ hmem)⟩

theorem getD_zipWith (f : Finset ℕ → Finset ℕ → Finset ℕ) (X R : List (Finset ℕ))
    (k : ℕ) (hk : k < X.length) (hk' : k < R.length) :
    (X.zipWith f R).getD k ∅ = f (X.getD k ∅) (R.getD k ∅) := by
  induction X generalizing R k with
  | nil => simp at hk
  | cons x xs ih =>
    cases R with
    | nil => simp at hk'
    | cons r rs =>
      cases k with
      | zero => simp
      | succ m =>
        simp only [List.zipWith_cons_cons, List.getD_cons_succ]
        exact ih rs m (by simpa using hk) (by simpa using hk')

theorem conjAt_prepare_fst (X R : List (Finset ℕ)) (k : ℕ) (hk : k < X.length)
    (hk' : k < R.length) :
    conjAt (prepare_sets X R).1 k = conjAt R k ∩ conjAt X k := by
  rw [prepare_sets]
  exact getD_zipWith _ _ _ _ hk hk'

theorem conjAt_prepare_snd (X R : List (Finset ℕ)) (k : ℕ) (hk : k < X.length)
    (hk' : k < R.length) :
    conjAt (prepare_sets X R).2 k = conjAt X k \ conjAt R k := by
  rw [prepare_sets]
  exact getD_zipWith _ _ _ _ hk hk'

theorem conjAt_prepare_fst_out (X R : List (Finset ℕ)) (k : ℕ) (hk : X.length ≤ k) :
    conjAt (prepare_sets X R).1 k = ∅ := by
  rw [prepare_sets, conjAt, List.getD_eq_default]
  rw [List.length_zipWith]
  omega

theorem fire_length {conj : List (Finset ℕ)} :
    ∀ {hcs kept pos}, fire conj hcs = .ok (kept, pos) →
      kept.length + pos.length = hcs.length := by
  intro hcs
  induction hcs with
  | nil => intro kept pos h; rw [fire] at h; injection h with h; injection h with h1 h2
           rw [← h1, ← h2]; simp
  | cons hc rest ih =>
    intro kept pos h
    rw [fire] at h
    by_cases hemp : (hc.premises.filter fun p => !(satisfies p (conjAt conj p.loc))).isEmpty
    · rw [if_pos hemp] at h
      cases hconc : hc.conclusion with
      | none => rw [hconc] at h; exact absurd h (by simp)
      | some c =>
        rw [hconc] at h
        cases hrec : fire conj rest with
        | error e => rw [hrec] at h; exact absurd h (by simp)
        | ok p =>
          obtain ⟨kept', pos'⟩ := p
          rw [hrec] at h
          injection h with h
          injection h with h1 h2
          have := ih hrec
          rw [← h1, ← h2]
          simp only [List.length_cons]
          omega
    · rw [if_neg hemp] at h
      cases hrec : fire conj rest with
      | error e => rw [hrec] at h; exact absurd h (by simp)
      | ok p =>
        obtain ⟨kept', pos'⟩ := p
        rw [hrec] at h
        injection h with h
        injection h with h1 h2
        have := ih hrec
        rw [← h1, ← h2]
        simp only [List.length_cons]
        omega

theorem hornPassAll_kept_le (R XmR : List (Finset ℕ)) (hcs : List horn_constraint) :
    (hornPassAll R XmR hcs).2.2.1.length ≤ hcs.length ∧
      ((hornPassAll R XmR hcs).2.2.2 = true →
        (hornPassAll R XmR hcs).2.2.1.length < hcs.length) := by
  induction hcs generalizing R XmR with
  | nil => simp [hornPassAll]
  | cons hc rest ih =>
    rw [hornPassAll]
    by_cases h1 : lhsSat R hc
    · rw [h1]
      simp only [Bool.not_true, Bool.false_eq_true, if_false]
      by_cases h2 : conclSat R hc
      · rw [if_pos h2]
        have := ih R XmR
        constructor
        · simp only [List.length_cons]
          omega
        · intro hflag
          simp only [List.length_cons]
          have := (ih R XmR).2 hflag
          omega
      · rw [if_neg h2]
        have := (ih (addAllPremZeros R XmR hc.premises).1
          (addAllPremZeros R XmR hc.premises).2).1
        constructor
        · simp only [List.length_cons]
          omega
        · intro _
          simp only [List.length_cons]
          omega
    · rw [Bool.not_eq_true] at h1
      rw [h1]
      simp only [Bool.not_false, if_true]
      have := ih R XmR
      constructor
      · simp only [List.length_cons]
        omega
      · intro hflag
        simp only [List.length_cons]
        have := this.2 hflag
        omega

theorem hornPassFirst_kept_le {R XmR : List (Finset ℕ)} :
    ∀ {hcs : List horn_constraint} {R' XmR' kept flag},
      hornPassFirst R XmR hcs = .ok (R', XmR', kept, flag) →
        kept.length ≤ hcs.length ∧ (flag = true → kept.length < hcs.length) := by
  intro hcs
  induction hcs generalizing R XmR with
  | nil =>
    intro R' XmR' kept flag h
    rw [hornPassFirst] at h
    injection h with h
    injection h with h1 h
    injection h with h2 h
    injection h with h3 h4
    rw [← h3, ← h4]
    simp
  | cons hc rest ih =>
    intro R' XmR' kept flag h
    rw [hornPassFirst] at h
    by_cases h1 : lhsSat R hc
    · rw [h1] at h
      simp only [Bool.not_true, Bool.false_eq_true, if_false] at h
      by_cases h2 : conclSat R hc
      · rw [if_pos h2] at h
        cases hrec : hornPassFirst R XmR rest with
        | error e => rw [hrec] at h; exact absurd h (by simp)
        | ok q =>
          obtain ⟨Ra, XmRa, kepta, flaga⟩ := q
          rw [hrec] at h
          injection h with h
          injection h with ha h
          injection h with hb h
          injection h with hcx hd
          obtain ⟨hle, hlt⟩ := ih hrec
          constructor
          · rw [← hcx]
            simp only [List.length_cons]
            omega
          · intro hf
            rw [← hcx]
            simp only [List.length_cons]
            have := hlt (by rw [hd]; exact hf)
            omega
      · rw [if_neg h2] at h
        cases hfz : firstPremZero XmR hc.premises with
        | none => rw [hfz] at h; exact absurd h (by simp)
        | some q =>
          obtain ⟨id, z⟩ := q
          rw [hfz] at h
          dsimp only at h
          cases hrec : hornPassFirst (updAt R id (fun s => insert z s))
              (updAt XmR id (fun s => s.erase z)) rest with
          | error e => rw [hrec] at h; exact absurd h (by simp)
          | ok q =>
            obtain ⟨Ra, XmRa, kepta, flaga⟩ := q
            rw [hrec] at h
            injection h with h
            injection h with ha h
            injection h with hb h
            injection h with hcx hd
            obtain ⟨hle, _⟩ := ih hrec
            constructor
            · rw [← hcx]
              simp only [List.length_cons]
              omega
            · intro _
              rw [← hcx]
              simp only [List.length_cons]
              omega
    · rw [Bool.not_eq_true] at h1
      rw [h1] at h
      simp only [Bool.not_false, if_true] at h
      obtain ⟨hle, hlt⟩ := ih h
      constructor
      · simp only [List.length_cons]
        omega
      · intro hf
        simp only [List.length_cons]
        have := hlt hf
        omega

theorem filter_unsat_empty_iff {conj : List (Finset ℕ)} {prems : List datapoint} :
    ((prems.filter fun p => !(satisfies p (conjAt conj p.loc))).isEmpty = true) ↔
      ∀ p ∈ prems, satisfies p (conjAt conj p.loc) = true := by
  rw [List.isEmpty_iff, List.filter_eq_nil_iff]
  constructor
  · intro h p hp
    have := h p hp
    simpa using this
  · intro h p hp
    simp [h p hp]

theorem fire_eq_error_iff (conj : List (Finset ℕ)) (hcs : List horn_constraint) :
    (∃ e, fire conj hcs = .error e) ↔
      ∃ hc ∈ hcs, hc.conclusion = none ∧
        ∀ p ∈ hc.premises, satisfies p (conjAt conj p.loc) = true := by
  induction hcs with
  | nil => simp [fire]
  | cons hc rest ih =>
    rw [fire]
    by_cases hb : (hc.premises.filter fun p => !(satisfies p (conjAt conj p.loc))).isEmpty
    · rw [if_pos hb]
      cases hconc : hc.conclusion with
      | none =>
        simp only [List.mem_cons]
        constructor
        · intro _
          exact ⟨hc, Or.inl rfl, hconc, filter_unsat_empty_iff.mp hb⟩
        · intro _
          exact ⟨"No consistent conjunction exists", rfl⟩
      | some c =>
        cases hrec : fire conj rest with
        | error e =>
          simp only [List.mem_cons]
          constructor
          · intro _
            obtain ⟨hc', hmem, hcc, hall⟩ := ih.mp ⟨e, hrec⟩
            exact ⟨hc', Or.inr hmem, hcc, hall⟩
          · intro _
            exact ⟨e, rfl⟩
        | ok pr =>
          obtain ⟨kept, pos⟩ := pr
          simp only [List.mem_cons]
          constructor
          · rintro ⟨e, he⟩
            exact absurd he (by simp)
          · rintro ⟨hc', hmem, hcc, hall⟩
            rcases hmem with hmem | hmem
            · subst hmem
              rw [hconc] at hcc
              exact absurd hcc (by simp)
            · obtain ⟨e, he⟩ := ih.mpr ⟨hc', hmem, hcc, hall⟩
              rw [he] at hrec
              exact absurd hrec (by simp)
    · rw [if_neg hb]
      cases hrec : fire conj rest with
      | error e =>
        simp only [List.mem_cons]
        constructor
        · intro _
          obtain ⟨hc', hmem, hcc, hall⟩ := ih.mp ⟨e, hrec⟩
          exact ⟨hc', Or.inr hmem, hcc, hall⟩
        · intro _
          exact ⟨e, rfl⟩
      | ok pr =>
        obtain ⟨kept, pos⟩ := pr
        simp only [List.mem_cons]
        constructor
        · rintro ⟨e, he⟩
          exact absurd he (by simp)
        · rintro ⟨hc', hmem, hcc, hall⟩
          rcases hmem with hmem | hmem
          · subst hmem
            exact absurd (filter_unsat_empty_iff.mpr hall) hb
          · obtain ⟨e, he⟩ := ih.mpr ⟨hc', hmem, hcc, hall⟩
            rw [he] at hrec
            exact absurd hrec (by simp)

theorem fire_error_msg {conj : List (Finset ℕ)} :
    ∀ {hcs : List horn_constraint} {e : String},
      fire conj hcs = .error e → e = "No consistent conjunction exists" := by
  intro hcs
  induction hcs with
  | nil =>
    intro e h
    rw [fire] at h
    exact absurd h (by simp)
  | cons hc rest ih =>
    intro e h
    rw [fire] at h
    by_cases hb : (hc.premises.filter fun p => !(satisfies p (conjAt conj p.loc))).isEmpty
    · rw [if_pos hb] at h
      cases hconc : hc.conclusion with
      | none =>
        rw [hconc] at h
        injection h with h
        exact h.symm
      | some c =>
        rw [hconc] at h
        cases hrec : fire conj rest with
        | error e' =>
          rw [hrec] at h
          injection h with h
          rw [← h]
          exact ih hrec
        | ok pr =>
          obtain ⟨kept, pos⟩ := pr
          rw [hrec] at h
          exact absurd h (by simp)
    · rw [if_neg hb] at h
      cases hrec : fire conj rest with
      | error e' =>
        rw [hrec] at h
        injection h with h
        rw [← h]
        exact ih hrec
      | ok pr =>
        obtain ⟨kept, pos⟩ := pr
        rw [hrec] at h
        exact absurd h (by simp)

theorem horndiniLoop_error_msg :
    ∀ (fuel : ℕ) {conj : List (Finset ℕ)} {hcs : List horn_constraint}
      {positive : List datapoint} {e : String}, hcs.length < fuel →
      horndiniLoop fuel conj hcs positive = .error e →
        e = "No consistent conjunction exists" := by
  intro fuel
  induction fuel with
  | zero =>
    intro conj hcs positive e hlt
    omega
  | succ fuel ih =>
    intro conj hcs positive e hlt h
    rw [horndiniLoop] at h
    cases hfire : fire (knockout conj positive) hcs with
    | error e' =>
      rw [hfire] at h
      injection h with h
      rw [← h]
      exact fire_error_msg hfire
    | ok pr =>
      obtain ⟨hcs', newPos⟩ := pr
      rw [hfire] at h
      dsimp only at h
      by_cases hemp : newPos.isEmpty
      · rw [if_pos hemp] at h
        exact absurd h (by simp)
      · rw [if_neg hemp] at h
        have hlen := fire_length hfire
        have hnp : newPos.length ≠ 0 := by
          intro h0
          rw [List.isEmpty_iff_length_eq_zero] at hemp
          exact hemp h0
        exact ih (by omega) h

/-- C10: `satisfies(dp, ∅)` is true for every data point; a hypothesis whose
conjunctions are all empty classifies every example as positive. -/
theorem C10_satisfies_empty :
    (∀ dp : datapoint, satisfies dp (∅ : Finset ℕ) = true) ∧
      (∀ (dp : datapoint) (L : ℕ),
        satisfies dp (conjAt (List.replicate L (∅ : Finset ℕ)) dp.loc) = true) := by
  constructor
  · exact satisfies_empty
  · intro dp L
    have : conjAt (List.replicate L (∅ : Finset ℕ)) dp.loc = ∅ := by
      rw [conjAt]
      by_cases h : dp.loc < L
      · rw [List.getD_eq_getElem _ _ (by simpa using h)]
        simp
      · rw [List.getD_eq_default]
        simpa using h
    rw [this]
    exact satisfies_empty dp

/-- C9: `prepare_sets` rewrites `R` to `R ∩ X` per location and fills
`X_minus_R` with `X \ R`, so that `R' ⊆ X`, `R' ∪ X_minus_R = X` and
`R' ∩ X_minus_R = ∅`; the iterator merge walk of the source
(`prepare_walk`) computes exactly those sets on the sorted element lists. -/
theorem C9_prepare_sets_spec :
    (∀ (R X : List ℕ), List.Sorted (· < ·) R → List.Sorted (· < ·) X →
      (∀ a, a ∈ (prepare_walk R X).1 ↔ a ∈ R ∧ a ∈ X) ∧
      (∀ a, a ∈ (prepare_walk R X).2 ↔ a ∈ X ∧ a ∉ R)) ∧
    (∀ (X R : List (Finset ℕ)), X.length = R.length → ∀ k, k < X.length →
      conjAt (prepare_sets X R).1 k = conjAt R k ∩ conjAt X k ∧
      conjAt (prepare_sets X R).2 k = conjAt X k \ conjAt R k ∧
      conjAt (prepare_sets X R).1 k ⊆ conjAt X k ∧
      conjAt (prepare_sets X R).1 k ∪ conjAt (prepare_sets X R).2 k = conjAt X k ∧
      conjAt (prepare_sets X R).1 k ∩ conjAt (prepare_sets X R).2 k = ∅) := by
  constructor
  · exact prepare_walk_mem
  · intro X R hlen k hk
    have h1 := conjAt_prepare_fst X R k hk (by omega)
    have h2 := conjAt_prepare_snd X R k hk (by omega)
    refine ⟨h1, h2, ?_, ?_, ?_⟩
    · rw [h1]
      exact Finset.inter_subset_right
    · rw [h1, h2]
      ext a
      simp only [Finset.mem_union, Finset.mem_inter, Finset.mem_sdiff]
      constructor
      · rintro (⟨_, h⟩ | ⟨h, _⟩) <;> exact h
      · intro h
        by_cases hr : a ∈ conjAt R k
        · exact Or.inl ⟨hr, h⟩
        · exact Or.inr ⟨h, hr⟩
    · rw [h1, h2]
      ext a
      simp only [Finset.mem_inter, Finset.mem_sdiff, Finset.not_mem_empty, iff_false]
      rintro ⟨⟨hr, _⟩, _, hnr⟩
      exact hnr hr

theorem C9_prepare_sets_spec_witness :
    (∀ a, a ∈ (prepare_walk [1, 2] [2, 3]).1 ↔ a ∈ [1, 2] ∧ a ∈ [2, 3]) ∧
      conjAt (prepare_sets [({0, 3} : Finset ℕ)] [({3, 5} : Finset ℕ)]).1 0 =
        conjAt [({3, 5} : Finset ℕ)] 0 ∩ conjAt [({0, 3} : Finset ℕ)] 0 :=
  ⟨(C9_prepare_sets_spec.1 [1, 2] [2, 3] (by decide) (by decide)).1,
   (C9_prepare_sets_spec.2 [({0, 3} : Finset ℕ)] [({3, 5} : Finset ℕ)] rfl 0
      (by decide)).1⟩

/-- C5 counterexample: a Horn constraint whose premises all satisfy `R` and
whose conclusion satisfies `R` is *not* dropped by the Horn pass of the
Sorcar reducers — it stays in the work list (the source keeps it with
`++hc_it`, commented "it might be necessary to look at it again"). -/
theorem C5_counterexample :
    lhsSat [(∅ : Finset ℕ)] ⟨[], some ⟨[true], 0, false, false⟩⟩ = true ∧
    conclSat [(∅ : Finset ℕ)] ⟨[], some ⟨[true], 0, false, false⟩⟩ = true ∧
    (hornPassAll [(∅ : Finset ℕ)] [(∅ : Finset ℕ)]
        [⟨[], some ⟨[true], 0, false, false⟩⟩]).2.2.1 ≠ [] := by
  refine ⟨by decide, by decide, by decide⟩

/-- C5 (amended): during the Horn fixed-point pass of the Sorcar reducers
`all` and `first`, a constraint whose premises all satisfy the current `R`
and whose conclusion (not `⊥`) satisfies the current `R` is kept in the work
list for later iterations, with `R` and `X_minus_R` unchanged by its
processing step; only vacuous and active constraints are removed. -/
theorem C5_satisfied_horn_kept (R XmR : List (Finset ℕ)) (hc : horn_constraint)
    (rest : List horn_constraint) (hlhs : lhsSat R hc = true)
    (hconc : conclSat R hc = true) :
    hornPassAll R XmR (hc :: rest) =
      ((hornPassAll R XmR rest).1, (hornPassAll R XmR rest).2.1,
        hc :: (hornPassAll R XmR rest).2.2.1, (hornPassAll R XmR rest).2.2.2) ∧
    hornPassFirst R XmR (hc :: rest) =
      Except.map (fun q => (q.1, q.2.1, hc :: q.2.2.1, q.2.2.2))
        (hornPassFirst R XmR rest) := by
  constructor
  · rw [hornPassAll, hlhs]
    simp only [Bool.not_true, Bool.false_eq_true, if_false]
    rw [if_pos hconc]
  · rw [hornPassFirst, hlhs]
    simp only [Bool.not_true, Bool.false_eq_true, if_false]
    rw [if_pos hconc]
    cases hrec : hornPassFirst R XmR rest with
    | error e => rw [Except.map]
    | ok q =>
      obtain ⟨R', XmR', kept, flag⟩ := q
      rw [Except.map]

theorem C5_satisfied_horn_kept_witness :
    hornPassAll [(∅ : Finset ℕ)] [(∅ : Finset ℕ)]
        [⟨[], some ⟨[true], 0, false, false⟩⟩] =
      ([(∅ : Finset ℕ)], [(∅ : Finset ℕ)],
        [(⟨[], some ⟨[true], 0, false, false⟩⟩ : horn_constraint)], false) :=
  (C5_satisfied_horn_kept [∅] [∅] ⟨[], some ⟨[true], 0, false, false⟩⟩ []
      (by decide) (by decide)).1.trans (by decide)

/-- C3: Horndini raises `Inconsistent` ("No consistent conjunction exists")
exactly when a firing pass discharges every premise of a Horn constraint
whose conclusion is `⊥`: that is the only error the loop can produce, a
firing pass errors iff such a constraint exists under the current
conjunctions, and the S4 scenario (positive `[1,1,0,0]`, Horn
`{positive} ⇒ ⊥`) fails with that error. -/
theorem C3_inconsistent_iff_bot_fires :
    (horndiniX [dpS4] [⟨[dpS4], none⟩] [(0, 3)] =
      .error "No consistent conjunction exists") ∧
    (∀ (conj : List (Finset ℕ)) (hcs : List horn_constraint),
      (∃ e, fire conj hcs = .error e) ↔
        ∃ hc ∈ hcs, hc.conclusion = none ∧
          ∀ p ∈ hc.premises, satisfies p (conjAt conj p.loc) = true) ∧
    (∀ (fuel : ℕ) (conj : List (Finset ℕ)) (hcs : List horn_constraint)
        (positive : List datapoint) (e : String), hcs.length < fuel →
      horndiniLoop fuel conj hcs positive = .error e →
        e = "No consistent conjunction exists") := by
  refine ⟨by decide, fire_eq_error_iff, ?_⟩
  intro fuel conj hcs positive e hlt h
  exact horndiniLoop_error_msg fuel hlt h

theorem C3_inconsistent_iff_bot_fires_witness :
    (∃ e, fire [({0, 1} : Finset ℕ)] [⟨[dpS4], none⟩] = .error e) ∧
      "No consistent conjunction exists" = "No consistent conjunction exists" :=
  ⟨(C3_inconsistent_iff_bot_fires.2.1 [({0, 1} : Finset ℕ)] [⟨[dpS4], none⟩]).mpr
      ⟨⟨[dpS4], none⟩, by decide, rfl, by decide⟩,
   C3_inconsistent_iff_bot_fires.2.2 2 [Finset.Icc 0 3] [⟨[dpS4], none⟩] [dpS4]
      "No consistent conjunction exists" (by decide) (by decide)⟩

/-- C4 counterexample: in scenario S1 (positives `[1,1,0,1]` and
`[1,0,0,1]`, no negatives, no Horns), `reduce_predicates_all` started from
the empty `R` returns the empty conjunction, not `{0, 3}` as claimed. -/
theorem C4_counterexample :
    reduce_predicates_all [dpS1a, dpS1b] [] [({0, 3} : Finset ℕ)] [∅] =
        .ok [(∅ : Finset ℕ)] ∧
      ((∅ : Finset ℕ) ≠ {0, 3}) := by
  refine ⟨by decide, by decide⟩

/-- C4 (amended): in scenario S1, Horndini returns `{0, 3}`, and the Sorcar
variants `all`, `first` and `greedy` started from the empty initial `R`
return the empty conjunction (which is consistent here); the `minimal`
variant with the trivial solver model likewise returns the empty
conjunction. -/
theorem C4_scenario_S1 :
    horndiniX [dpS1a, dpS1b] [] [(0, 3)] = .ok [({0, 3} : Finset ℕ)] ∧
    reduce_predicates_all [dpS1a, dpS1b] [] [({0, 3} : Finset ℕ)] [∅] =
      .ok [(∅ : Finset ℕ)] ∧
    reduce_predicates_first [dpS1a, dpS1b] [] [({0, 3} : Finset ℕ)] [∅] =
      .ok [(∅ : Finset ℕ)] ∧
    reduce_predicates_greedy [dpS1a, dpS1b] [] [({0, 3} : Finset ℕ)] [∅] =
      .ok [(∅ : Finset ℕ)] ∧
    reduce_predicates_minimal (fun _ => some (fun _ => false)) [dpS1a, dpS1b] []
        [({0, 3} : Finset ℕ)] [∅] = .ok [(∅ : Finset ℕ)] := by
  refine ⟨by decide, by decide, by decide, by decide, by decide⟩

/-- C1: every Sorcar reducer call (all, first, greedy, minimal) that returns
without raising an error returns a per-location conjunction vector that is
consistent with the data points and Horn constraints in the sense of
`is_consistent`: every positive example satisfies it, no negative example
satisfies it, and every Horn constraint whose premises all satisfy it has a
non-`⊥` conclusion that satisfies it (the source asserts
`is_consistent(R, datapoints, horn_constraints)` before returning). -/
theorem C1_reducers_consistent (datapoints : List datapoint)
    (horn_constraints : List horn_constraint) (X R₀ R' : List (Finset ℕ))
    (oracle : ℕ → Option (ℕ → Bool)) :
    (reduce_predicates_all datapoints horn_constraints X R₀ = .ok R' →
      consistent_spec R' datapoints horn_constraints) ∧
    (reduce_predicates_first datapoints horn_constraints X R₀ = .ok R' →
      consistent_spec R' datapoints horn_constraints) ∧
    (reduce_predicates_greedy datapoints horn_constraints X R₀ = .ok R' →
      consistent_spec R' datapoints horn_constraints) ∧
    (reduce_predicates_minimal oracle datapoints horn_constraints X R₀ = .ok R' →
      consistent_spec R' datapoints horn_constraints) := by
  refine ⟨?_, ?_, ?_, ?_⟩
  · intro h
    rw [reduce_predicates_all] at h
    by_cases h1 : X.isEmpty
    · rw [if_pos h1] at h
      exact absurd h (by simp)
    · rw [if_neg h1] at h
      by_cases h2 : X.length ≠ R₀.length
      · rw [if_pos h2] at h
        exact absurd h (by simp)
      · rw [if_neg h2] at h
        dsimp only at h
        cases hneg : negPassAll X (prepare_sets X R₀).1 (prepare_sets X R₀).2 datapoints with
        | error e =>
          rw [hneg] at h
          exact absurd h (by simp)
        | ok pr =>
          obtain ⟨R2, XmR2⟩ := pr
          rw [hneg] at h
          dsimp only at h
          by_cases hcons : is_consistent
              (fixAll (horn_constraints.length + 1) R2 XmR2 horn_constraints).1
              datapoints horn_constraints
          · rw [if_pos hcons] at h
            injection h with h
            rw [← h]
            exact is_consistent_iff.mp hcons
          · rw [if_neg hcons] at h
            exact absurd h (by simp)
  · intro h
    rw [reduce_predicates_first] at h
    by_cases h1 : X.isEmpty
    · rw [if_pos h1] at h
      exact absurd h (by simp)
    · rw [if_neg h1] at h
      by_cases h2 : X.length ≠ R₀.length
      · rw [if_pos h2] at h
        exact absurd h (by simp)
      · rw [if_neg h2] at h
        dsimp only at h
        cases hneg : negPassFirst (prepare_sets X R₀).1 (prepare_sets X R₀).2 datapoints with
        | error e =>
          rw [hneg] at h
          exact absurd h (by simp)
        | ok pr =>
          obtain ⟨R2, XmR2⟩ := pr
          rw [hneg] at h
          dsimp only at h
          cases hfix : fixFirst (horn_constraints.length + 1) R2 XmR2 horn_constraints with
          | error e =>
            rw [hfix] at h
            exact absurd h (by simp)
          | ok pr2 =>
            obtain ⟨R3, XmR3⟩ := pr2
            rw [hfix] at h
            dsimp only at h
            by_cases hcons : is_consistent R3 datapoints horn_constraints
            · rw [if_pos hcons] at h
              injection h with h
              rw [← h]
              exact is_consistent_iff.mp hcons
            · rw [if_neg hcons] at h
              exact absurd h (by simp)
  · intro h
    rw [reduce_predicates_greedy] at h
    by_cases h1 : X.isEmpty
    · rw [if_pos h1] at h
      exact absurd h (by simp)
    · rw [if_neg h1] at h
      by_cases h2 : X.length ≠ R₀.length
      · rw [if_pos h2] at h
        exact absurd h (by simp)
      · rw [if_neg h2] at h
        dsimp only at h
        cases hloop : greedyLoop datapoints horn_constraints
            ((X.map Finset.card).sum + horn_constraints.length + 2)
            (prepare_sets X R₀).1 (prepare_sets X R₀).2
            (negPhaseGreedy (prepare_sets X R₀).1 (prepare_sets X R₀).2 datapoints
              X.length) with
        | error e =>
          rw [hloop] at h
          exact absurd h (by simp)
        | ok pr =>
          obtain ⟨R3, XmR3⟩ := pr
          rw [hloop] at h
          dsimp only at h
          by_cases hcons : is_consistent R3 datapoints horn_constraints
          · rw [if_pos hcons] at h
            injection h with h
            rw [← h]
            exact is_consistent_iff.mp hcons
          · rw [if_neg hcons] at h
            exact absurd h (by simp)
  · intro h
    rw [reduce_predicates_minimal] at h
    by_cases h1 : X.isEmpty
    · rw [if_pos h1] at h
      exact absurd h (by simp)
    · rw [if_neg h1] at h
      by_cases h2 : X.length ≠ R₀.length
      · rw [if_pos h2] at h
        exact absurd h (by simp)
      · rw [if_neg h2] at h
        dsimp only at h
        cases hsearch : minimalSearch oracle (prepare_sets X R₀).2 (prepare_sets X R₀).1 1
            (((prepare_sets X R₀).2.map Finset.card).sum - 1) with
        | error e =>
          rw [hsearch] at h
          exact absurd h (by simp)
        | ok R3 =>
          rw [hsearch] at h
          dsimp only at h
          by_cases hcons : is_consistent R3 datapoints horn_constraints
          · rw [if_pos hcons] at h
            injection h with h
            rw [← h]
            exact is_consistent_iff.mp hcons
          · rw [if_neg hcons] at h
            exact absurd h (by simp)

theorem C1_reducers_consistent_witness :
    consistent_spec [({2} : Finset ℕ)] [posS2, negS2] [] :=
  (C1_reducers_consistent [posS2, negS2] [] [Finset.Icc 0 3] [∅] [({2} : Finset ℕ)]
      (fun _ => none)).1 (by decide)

theorem conjAt_out {l : List (Finset ℕ)} {k : ℕ} (h : l.length ≤ k) :
    conjAt l k = ∅ := by
  rw [conjAt, List.getD_eq_default]
  exact h

theorem conjAt_negPassAll_grows {X : List (Finset ℕ)} :
    ∀ {dps : List datapoint} {R XmR R' XmR' : List (Finset ℕ)},
      negPassAll X R XmR dps = .ok (R', XmR') → ∀ k, conjAt R k ⊆ conjAt R' k := by
  intro dps
  induction dps with
  | nil =>
    intro R XmR R' XmR' h k
    rw [negPassAll] at h
    injection h with h
    injection h with h1 h2
    rw [h1]
  | cons dp rest ih =>
    intro R XmR R' XmR' h k
    rw [negPassAll] at h
    by_cases h1 : dp.is_classified && !dp.classification && satisfies dp (conjAt R dp.loc)
    · rw [if_pos h1] at h
      by_cases h2 : satisfies dp (conjAt X dp.loc)
      · rw [if_pos h2] at h
        exact absurd h (by simp)
      · rw [if_neg h2] at h
        dsimp only at h
        by_cases h3 : (conjAt R dp.loc).card <
            (conjAt (updAt R dp.loc (fun s => s ∪ zerosOf XmR dp dp.loc)) dp.loc).card
        · rw [if_pos h3] at h
          refine Finset.Subset.trans ?_ (ih h k)
          exact conjAt_updAt_grow (fun s => Finset.subset_union_left) k
        · rw [if_neg h3] at h
          exact absurd h (by simp)
    · rw [if_neg h1] at h
      exact ih h k

theorem conjAt_addAllPremZeros_grows :
    ∀ (prems : List datapoint) (R XmR : List (Finset ℕ)) (k : ℕ),
      conjAt R k ⊆ conjAt (addAllPremZeros R XmR prems).1 k := by
  intro prems
  induction prems with
  | nil =>
    intro R XmR k
    rw [addAllPremZeros]
  | cons dp rest ih =>
    intro R XmR k
    rw [addAllPremZeros]
    refine Finset.Subset.trans ?_ (ih _ _ k)
    exact conjAt_updAt_grow (fun s => Finset.subset_union_left) k

theorem conjAt_hornPassAll_grows :
    ∀ (hcs : List horn_constraint) (R XmR : List (Finset ℕ)) (k : ℕ),
      conjAt R k ⊆ conjAt (hornPassAll R XmR hcs).1 k := by
  intro hcs
  induction hcs with
  | nil =>
    intro R XmR k
    rw [hornPassAll]
  | cons hc rest ih =>
    intro R XmR k
    rw [hornPassAll]
    by_cases h1 : lhsSat R hc
    · rw [h1]
      simp only [Bool.not_true, Bool.false_eq_true, if_false]
      by_cases h2 : conclSat R hc
      · rw [if_pos h2]
        exact ih R XmR k
      · rw [if_neg h2]
        refine Finset.Subset.trans (conjAt_addAllPremZeros_grows hc.premises R XmR k) ?_
        exact ih _ _ k
    · rw [Bool.not_eq_true] at h1
      rw [h1]
      simp only [Bool.not_false, if_true]
      exact ih R XmR k

theorem conjAt_fixAll_grows :
    ∀ (fuel : ℕ) (R XmR : List (Finset ℕ)) (hcs : List horn_constraint) (k : ℕ),
      conjAt R k ⊆ conjAt (fixAll fuel R XmR hcs).1 k := by
  intro fuel
  induction fuel with
  | zero =>
    intro R XmR hcs k
    rw [fixAll]
  | succ fuel ih =>
    intro R XmR hcs k
    rw [fixAll]
    by_cases hf : (hornPassAll R XmR hcs).2.2.2
    · rw [if_pos hf]
      refine Finset.Subset.trans (conjAt_hornPassAll_grows hcs R XmR k) (ih _ _ _ k)
    · rw [if_neg hf]
      exact conjAt_hornPassAll_grows hcs R XmR k

theorem conjAt_negPassFirst_grows :
    ∀ {dps : List datapoint} {R XmR R' XmR' : List (Finset ℕ)},
      negPassFirst R XmR dps = .ok (R', XmR') → ∀ k, conjAt R k ⊆ conjAt R' k := by
  intro dps
  induction dps with
  | nil =>
    intro R XmR R' XmR' h k
    rw [negPassFirst] at h
    injection h with h
    injection h with h1 h2
    rw [h1]
  | cons dp rest ih =>
    intro R XmR R' XmR' h k
    rw [negPassFirst] at h
    by_cases h1 : dp.is_classified && !dp.classification && satisfies dp (conjAt R dp.loc)
    · rw [if_pos h1] at h
      by_cases hz : (zerosOf XmR dp dp.loc).Nonempty
      · rw [dif_pos hz] at h
        dsimp only at h
        by_cases h3 : (conjAt R dp.loc).card <
            (conjAt (updAt R dp.loc
              (fun s => insert ((zerosOf XmR dp dp.loc).min' hz) s)) dp.loc).card
        · rw [if_pos h3] at h
          refine Finset.Subset.trans ?_ (ih h k)
          exact conjAt_updAt_grow (fun s => Finset.subset_insert _ s) k
        · rw [if_neg h3] at h
          exact absurd h (by simp)
      · rw [dif_neg hz] at h
        exact absurd h (by simp)
    · rw [if_neg h1] at h
      exact ih h k

theorem conjAt_hornPassFirst_grows :
    ∀ {hcs : List horn_constraint} {R XmR R' XmR' : List (Finset ℕ)}
      {kept : List horn_constraint} {flag : Bool},
      hornPassFirst R XmR hcs = .ok (R', XmR', kept, flag) →
        ∀ k, conjAt R k ⊆ conjAt R' k := by
  intro hcs
  induction hcs with
  | nil =>
    intro R XmR R' XmR' kept flag h k
    rw [hornPassFirst] at h
    injection h with h
    injection h with h1 h
    rw [h1]
  | cons hc rest ih =>
    intro R XmR R' XmR' kept flag h k
    rw [hornPassFirst] at h
    by_cases h1 : lhsSat R hc
    · rw [h1] at h
      simp only [Bool.not_true, Bool.false_eq_true, if_false] at h
      by_cases h2 : conclSat R hc
      · rw [if_pos h2] at h
        cases hrec : hornPassFirst R XmR rest with
        | error e => rw [hrec] at h; exact absurd h (by simp)
        | ok q =>
          obtain ⟨Ra, XmRa, kepta, flaga⟩ := q
          rw [hrec] at h
          injection h with h
          injection h with ha h
          rw [← ha]
          exact ih hrec k
      · rw [if_neg h2] at h
        cases hfz : firstPremZero XmR hc.premises with
        | none => rw [hfz] at h; exact absurd h (by simp)
        | some q =>
          obtain ⟨id, z⟩ := q
          rw [hfz] at h
          dsimp only at h
          cases hrec : hornPassFirst (updAt R id (fun s => insert z s))
              (updAt XmR id (fun s => s.erase z)) rest with
          | error e => rw [hrec] at h; exact absurd h (by simp)
          | ok q =>
            obtain ⟨Ra, XmRa, kepta, flaga⟩ := q
            rw [hrec] at h
            injection h with h
            injection h with ha h
            rw [← ha]
            refine Finset.Subset.trans ?_ (ih hrec k)
            exact conjAt_updAt_grow (fun s => Finset.subset_insert _ s) k
    · rw [Bool.not_eq_true] at h1
      rw [h1] at h
      simp only [Bool.not_false, if_true] at h
      exact ih h k

theorem conjAt_fixFirst_grows :
    ∀ (fuel : ℕ) {R XmR R' XmR' : List (Finset ℕ)} {hcs : List horn_constraint},
      fixFirst fuel R XmR hcs = .ok (R', XmR') → ∀ k, conjAt R k ⊆ conjAt R' k := by
  intro fuel
  induction fuel with
  | zero =>
    intro R XmR R' XmR' hcs h k
    rw [fixFirst] at h
    injection h with h
    injection h with h1 h2
    rw [h1]
  | succ fuel ih =>
    intro R XmR R' XmR' hcs h k
    rw [fixFirst] at h
    cases hpass : hornPassFirst R XmR hcs with
    | error e => rw [hpass] at h; exact absurd h (by simp)
    | ok q =>
      obtain ⟨Ra, XmRa, kepta, flaga⟩ := q
      rw [hpass] at h
      dsimp only at h
      by_cases hf : flaga = true
      · rw [if_pos hf] at h
        refine Finset.Subset.trans (conjAt_hornPassFirst_grows hpass k) (ih h k)
      · rw [if_neg hf] at h
        injection h with h
        injection h with h1 h2
        rw [← h1]
        exact conjAt_hornPassFirst_grows hpass k

theorem conjAt_applyRel_grows :
    ∀ (newRel : List (ℕ × ℕ)) (R XmR : List (Finset ℕ)) (k : ℕ),
      conjAt R k ⊆ conjAt (applyRel R XmR newRel).1 k := by
  intro newRel
  induction newRel with
  | nil =>
    intro R XmR k
    rw [applyRel]
    simp only [List.foldl_nil]
    exact Finset.Subset.refl _
  | cons pr rest ih =>
    intro R XmR k
    rw [applyRel]
    simp only [List.foldl_cons]
    have step : conjAt R k ⊆ conjAt (updAt R pr.1 (fun s => insert pr.2 s)) k :=
      conjAt_updAt_grow (fun s => Finset.subset_insert _ s) k
    refine Finset.Subset.trans step ?_
    exact ih _ _ k

theorem conjAt_greedyLoop_grows :
    ∀ (fuel : ℕ) {dps : List datapoint} {hcs : List horn_constraint}
      {R XmR R' XmR' : List (Finset ℕ)} {preds : List PMap},
      greedyLoop dps hcs fuel R XmR preds = .ok (R', XmR') →
        ∀ k, conjAt R k ⊆ conjAt R' k := by
  intro fuel
  induction fuel with
  | zero =>
    intro dps hcs R XmR R' XmR' preds h k
    rw [greedyLoop] at h
    exact absurd h (by simp)
  | succ fuel ih =>
    intro dps hcs R XmR R' XmR' preds h k
    rw [greedyLoop] at h
    dsimp only at h
    by_cases hok : allEntriesEmpty
        (greedyPick dps hcs XmR
          (((hornPhaseGreedy R XmR hcs preds).1.map List.length).sum + 1)
          (hornPhaseGreedy R XmR hcs preds).1 []).1
    · rw [if_pos hok] at h
      by_cases hdone : !(hornPhaseGreedy R XmR hcs preds).2 &&
          (greedyPick dps hcs XmR
            (((hornPhaseGreedy R XmR hcs preds).1.map List.length).sum + 1)
            (hornPhaseGreedy R XmR hcs preds).1 []).2.isEmpty
      · rw [if_pos hdone] at h
        injection h with h
        injection h with h1 h2
        rw [← h1]
        exact conjAt_applyRel_grows _ _ _ k
      · rw [if_neg hdone] at h
        refine Finset.Subset.trans (conjAt_applyRel_grows _ R XmR k) (ih h k)
    · rw [if_neg hok] at h
      exact absurd h (by simp)

theorem inter_subset_prepare (X R₀ : List (Finset ℕ)) (hlen : X.length = R₀.length)
    (k : ℕ) : conjAt R₀ k ∩ conjAt X k ⊆ conjAt (prepare_sets X R₀).1 k := by
  by_cases hk : k < X.length
  · rw [conjAt_prepare_fst X R₀ k hk (by omega)]
  · have hX : conjAt X k = ∅ := conjAt_out (by omega)
    rw [hX, Finset.inter_empty]
    exact Finset.empty_subset _

/-- C6: the Sorcar variants all, first and greedy are monotone across rounds
when `R` is not reset: with a prior-round `R_prev ⊆ X` supplied as the
starting `R`, the returned `R_new` contains `R_prev ∩ X` at every location
(`prepare_sets` shrinks `R` exactly to `R_prev ∩ X`, and afterwards the
passes only insert into `R`). -/
theorem C6_monotone_across_rounds (datapoints : List datapoint)
    (horn_constraints : List horn_constraint) (X R₀ R' : List (Finset ℕ))
    (hsub : ∀ k, conjAt R₀ k ⊆ conjAt X k) :
    (reduce_predicates_all datapoints horn_constraints X R₀ = .ok R' →
      ∀ k, conjAt R₀ k ∩ conjAt X k ⊆ conjAt R' k) ∧
    (reduce_predicates_first datapoints horn_constraints X R₀ = .ok R' →
      ∀ k, conjAt R₀ k ∩ conjAt X k ⊆ conjAt R' k) ∧
    (reduce_predicates_greedy datapoints horn_constraints X R₀ = .ok R' →
      ∀ k, conjAt R₀ k ∩ conjAt X k ⊆ conjAt R' k) := by
  refine ⟨?_, ?_, ?_⟩
  · intro h k
    rw [reduce_predicates_all] at h
    by_cases h1 : X.isEmpty
    · rw [if_pos h1] at h
      exact absurd h (by simp)
    · rw [if_neg h1] at h
      by_cases h2 : X.length ≠ R₀.length
      · rw [if_pos h2] at h
        exact absurd h (by simp)
      · rw [if_neg h2] at h
        rw [Ne, Classical.not_not] at h2
        dsimp only at h
        cases hneg : negPassAll X (prepare_sets X R₀).1 (prepare_sets X R₀).2 datapoints with
        | error e =>
          rw [hneg] at h
          exact absurd h (by simp)
        | ok pr =>
          obtain ⟨R2, XmR2⟩ := pr
          rw [hneg] at h
          dsimp only at h
          by_cases hcons : is_consistent
              (fixAll (horn_constraints.length + 1) R2 XmR2 horn_constraints).1
              datapoints horn_constraints
          · rw [if_pos hcons] at h
            injection h with h
            rw [← h]
            refine Finset.Subset.trans (inter_subset_prepare X R₀ h2 k) ?_
            refine Finset.Subset.trans (conjAt_negPassAll_grows hneg k) ?_
            exact conjAt_fixAll_grows _ R2 XmR2 horn_constraints k
          · rw [if_neg hcons] at h
            exact absurd h (by simp)
  · intro h k
    rw [reduce_predicates_first] at h
    by_cases h1 : X.isEmpty
    · rw [if_pos h1] at h
      exact absurd h (by simp)
    · rw [if_neg h1] at h
      by_cases h2 : X.length ≠ R₀.length
      · rw [if_pos h2] at h
        exact absurd h (by simp)
      · rw [if_neg h2] at h
        rw [Ne, Classical.not_not] at h2
        dsimp only at h
        cases hneg : negPassFirst (prepare_sets X R₀).1 (prepare_sets X R₀).2 datapoints with
        | error e =>
          rw [hneg] at h
          exact absurd h (by simp)
        | ok pr =>
          obtain ⟨R2, XmR2⟩ := pr
          rw [hneg] at h
          dsimp only at h
          cases hfix : fixFirst (horn_constraints.length + 1) R2 XmR2 horn_constraints with
          | error e =>
            rw [hfix] at h
            exact absurd h (by simp)
          | ok pr2 =>
            obtain ⟨R3, XmR3⟩ := pr2
            rw [hfix] at h
            dsimp only at h
            by_cases hcons : is_consistent R3 datapoints horn_constraints
            · rw [if_pos hcons] at h
              injection h with h
              rw [← h]
              refine Finset.Subset.trans (inter_subset_prepare X R₀ h2 k) ?_
              refine Finset.Subset.trans (conjAt_negPassFirst_grows hneg k) ?_
              exact conjAt_fixFirst_grows _ hfix k
            · rw [if_neg hcons] at h
              exact absurd h (by simp)
  · intro h k
    rw [reduce_predicates_greedy] at h
    by_cases h1 : X.isEmpty
    · rw [if_pos h1] at h
      exact absurd h (by simp)
    · rw [if_neg h1] at h
      by_cases h2 : X.length ≠ R₀.length
      · rw [if_pos h2] at h
        exact absurd h (by simp)
      · rw [if_neg h2] at h
        rw [Ne, Classical.not_not] at h2
        dsimp only at h
        cases hloop : greedyLoop datapoints horn_constraints
            ((X.map Finset.card).sum + horn_constraints.length + 2)
            (prepare_sets X R₀).1 (prepare_sets X R₀).2
            (negPhaseGreedy (prepare_sets X R₀).1 (prepare_sets X R₀).2 datapoints
              X.length) with
        | error e =>
          rw [hloop] at h
          exact absurd h (by simp)
        | ok pr =>
          obtain ⟨R3, XmR3⟩ := pr
          rw [hloop] at h
          dsimp only at h
          by_cases hcons : is_consistent R3 datapoints horn_constraints
          · rw [if_pos hcons] at h
            injection h with h
            rw [← h]
            refine Finset.Subset.trans (inter_subset_prepare X R₀ h2 k) ?_
            exact conjAt_greedyLoop_grows _ hloop k
          · rw [if_neg hcons] at h
            exact absurd h (by simp)

theorem C6_monotone_across_rounds_witness :
    conjAt [({2} : Finset ℕ)] 0 ∩ conjAt [(Finset.Icc 0 3 : Finset ℕ)] 0 ⊆
      conjAt [({0, 2} : Finset ℕ)] 0 :=
  (C6_monotone_across_rounds [posS2, negS2, ⟨[false, true, true, true], 0, true, false⟩]
      [] [Finset.Icc 0 3] [({2} : Finset ℕ)] [({0, 2} : Finset ℕ)]
      (by
        intro k
        match k with
        | 0 => decide
        | k + 1 =>
          intro a ha
          simp [conjAt] at ha)).1 (by decide) 0

theorem sum_over_ascElems (w : ℕ → ℤ) (J : Finset ℕ) :
    ((ascElems J).map w).sum = J.sum w := by
  have hperm : (ascElems J).Perm J.toList := ascElems_perm J
  have h1 : ((ascElems J).map w).sum = (J.toList.map w).sum :=
    (hperm.map w).sum_eq
  rw [h1]
  rw [← Multiset.sum_coe, ← Multiset.map_coe, Finset.coe_toList]
  rfl

theorem ltfSum_nonneg {w : ℕ → ℤ} {J : Finset ℕ} {x : ℕ → Bool}
    (hw : ∀ j ∈ J, 0 ≤ w j) : 0 ≤ ltfSum w J x := by
  rw [ltfSum]
  refine Finset.sum_nonneg ?_
  intro j hj
  by_cases hx : x j
  · rw [if_pos hx]
    exact hw j hj
  · rw [if_neg hx]

theorem ltfSum_le_sum {w : ℕ → ℤ} {J : Finset ℕ} {x : ℕ → Bool}
    (hw : ∀ j ∈ J, 0 ≤ w j) : ltfSum w J x ≤ J.sum w := by
  rw [ltfSum]
  refine Finset.sum_le_sum ?_
  intro j hj
  by_cases hx : x j
  · rw [if_pos hx]
  · rw [if_neg hx]
    exact hw j hj

theorem sumMax_spec (w : ℕ → ℤ) (J : Finset ℕ) :
    (sumMax w J).1 = J.sum w ∧
    (∀ j ∈ J, w j ≤ (sumMax w J).2.1) ∧
    ((sumMax w J).2 = (-1, -1) ∨
      ∃ j ∈ J, (sumMax w J).2.1 = w j ∧ (sumMax w J).2.2 = (j : ℤ)) := by
  rw [sumMax]
  set f : ℤ × ℤ × ℤ → ℕ → ℤ × ℤ × ℤ :=
    fun acc j => (acc.1 + w j, if w j > acc.2.1 then (w j, (j : ℤ)) else acc.2) with hf
  have key : ∀ (l : List ℕ) (init : ℤ × ℤ × ℤ),
      (List.foldl f init l).1 = init.1 + (l.map w).sum ∧
      init.2.1 ≤ (List.foldl f init l).2.1 ∧
      (∀ j ∈ l, w j ≤ (List.foldl f init l).2.1) ∧
      ((List.foldl f init l).2 = init.2 ∨
        ∃ j ∈ l, (List.foldl f init l).2.1 = w j ∧
          (List.foldl f init l).2.2 = (j : ℤ)) := by
    intro l
    induction l with
    | nil =>
      intro init
      simp
    | cons a t ih =>
      intro init
      rw [List.foldl_cons]
      by_cases hc : w a > init.2.1
      · have hfa : f init a = (init.1 + w a, w a, (a : ℤ)) := by
          rw [hf]
          dsimp only
          rw [if_pos hc]
        rw [hfa]
        obtain ⟨ih1, ih2, ih3, ih4⟩ := ih (init.1 + w a, w a, (a : ℤ))
        dsimp only at ih1 ih2 ih3 ih4
        refine ⟨?_, ?_, ?_, ?_⟩
        · rw [ih1]
          simp only [List.map_cons, List.sum_cons]
          ring
        · omega
        · intro j hj
          rcases List.mem_cons.mp hj with hj | hj
          · subst hj
            omega
          · exact ih3 j hj
        · rcases ih4 with h | ⟨j, hj, hj1, hj2⟩
          · right
            refine ⟨a, List.mem_cons_self _ _, ?_, ?_⟩
            · rw [h]
            · rw [h]
          · right
            exact ⟨j, List.mem_cons_of_mem _ hj, hj1, hj2⟩
      · have hfa : f init a = (init.1 + w a, init.2) := by
          rw [hf]
          dsimp only
          rw [if_neg hc]
        rw [hfa]
        obtain ⟨ih1, ih2, ih3, ih4⟩ := ih (init.1 + w a, init.2)
        dsimp only at ih1 ih2 ih3 ih4
        refine ⟨?_, ?_, ?_, ?_⟩
        · rw [ih1]
          simp only [List.map_cons, List.sum_cons]
          ring
        · exact ih2
        · intro j hj
          rcases List.mem_cons.mp hj with hj | hj
          · subst hj
            omega
          · exact ih3 j hj
        · rcases ih4 with h | ⟨j, hj, hj1, hj2⟩
          · left
            exact h
          · right
            exact ⟨j, List.mem_cons_of_mem _ hj, hj1, hj2⟩
  obtain ⟨k1, k2, k3, k4⟩ := key (ascElems J) (0, -1, -1)
  refine ⟨?_, ?_, ?_⟩
  · rw [k1, sum_over_ascElems]
    ring
  · intro j hj
    exact k3 j (mem_ascElems.mpr hj)
  · rcases k4 with h | ⟨j, hj, hj1, hj2⟩
    · left
      exact h
    · right
      exact ⟨j, mem_ascElems.mp hj, hj1, hj2⟩

/-- C7 counterexample: with weights `w = [1, 1]` and threshold `θ = 1`, the
input `x = (0, 1)` satisfies `Σ w_i x_i ≥ θ` but the emitted tree rejects it
(the `sum ≤ theta` branch prunes to `leaf false` although the boundary
`Σ = θ` is still attainable). -/
theorem C7_counterexample :
    (1 : ℤ) ≤ ltfSum (fun j => if j < 2 then 1 else 0) {0, 1} (fun j => j == 1) ∧
    accepts (ltf2bool (fun j => if j < 2 then 1 else 0) 3 {0, 1} 1)
        (fun j => j == 1) = false := by
  refine ⟨by decide, by decide⟩

/-- C7 (amended): for integer weights that are nonnegative on the live index
set, the tree emitted by `ltf2bool` accepts every input with
`Σ w_i x_i > θ` and rejects every input with `Σ w_i x_i < θ`; on the
boundary `Σ w_i x_i = θ` the tree may accept or reject, depending on the
order of attribute selection.  Internal nodes split on the largest-weight
live attribute, keeping the residual threshold on the attribute-is-0 child
and subtracting the weight on the attribute-is-1 child. -/
theorem C7_ltf2bool_threshold :
    ∀ (fuel : ℕ) (w : ℕ → ℤ) (J : Finset ℕ) (theta : ℤ) (x : ℕ → Bool),
      J.card < fuel → (∀ j ∈ J, 0 ≤ w j) →
      (theta < ltfSum w J x → accepts (ltf2bool w fuel J theta) x = true) ∧
      (accepts (ltf2bool w fuel J theta) x = true → theta ≤ ltfSum w J x) := by
  intro fuel
  induction fuel with
  | zero =>
    intro w J theta x hfuel hw
    exact absurd hfuel (Nat.not_lt_zero _)
  | succ fuel ih =>
    intro w J theta x hfuel hw
    rw [ltf2bool]
    by_cases h0 : theta ≤ 0
    · rw [if_pos h0]
      constructor
      · intro _
        rw [accepts]
      · intro _
        have := @ltfSum_nonneg w J x hw
        omega
    · rw [if_neg h0]
      dsimp only
      by_cases h1 : (sumMax w J).1 > theta
      · rw [if_pos h1]
        obtain ⟨hsum, hmax, hcase⟩ := sumMax_spec w J
        rcases hcase with hinit | ⟨j, hj, hj1, hj2⟩
        · exfalso
          rcases Finset.eq_empty_or_nonempty J with hJ | ⟨j₀, hj₀⟩
          · subst hJ
            rw [hsum, Finset.sum_empty] at h1
            omega
          · have h2 := hmax j₀ hj₀
            have h3 : (sumMax w J).2.1 = -1 := by
              rw [hinit]
            have h4 := hw j₀ hj₀
            omega
        · have hjnat : (sumMax w J).2.2.toNat = j := by
            rw [hj2]
            simp
          rw [hjnat, hj1]
          have hcard : (J.erase j).card < fuel := by
            rw [Finset.card_erase_of_mem hj]
            have : 1 ≤ J.card := Finset.card_pos.mpr ⟨j, hj⟩
            omega
          have hw' : ∀ j' ∈ J.erase j, 0 ≤ w j' :=
            fun j' hj' => hw j' (Finset.mem_of_mem_erase hj')
          have hsplit : ltfSum w (J.erase j) x + (if x j then w j else 0) =
              ltfSum w J x := by
            rw [ltfSum, ltfSum]
            exact Finset.sum_erase_add J _ hj
          by_cases hx : x j
          · obtain ⟨ih1, ih2⟩ := ih w (J.erase j) (theta - w j) x hcard hw'
            rw [if_pos hx] at hsplit
            constructor
            · intro hgt
              simp only [accepts, hx, if_true]
              exact ih1 (by omega)
            · intro hacc
              simp only [accepts, hx, if_true] at hacc
              have := ih2 hacc
              omega
          · obtain ⟨ih1, ih2⟩ := ih w (J.erase j) theta x hcard hw'
            rw [if_neg hx] at hsplit
            constructor
            · intro hgt
              simp only [accepts, hx, if_false]
              exact ih1 (by omega)
            · intro hacc
              simp only [accepts, hx, if_false] at hacc
              have := ih2 hacc
              omega
      · rw [if_neg h1]
        obtain ⟨hsum, _, _⟩ := sumMax_spec w J
        constructor
        · intro hgt
          exfalso
          have := @ltfSum_le_sum w J x hw
          omega
        · intro hacc
          rw [accepts] at hacc
          exact absurd hacc (by simp)

theorem knockout1_shrink (conj : List (Finset ℕ)) (dp : datapoint) (k : ℕ) :
    conjAt (knockout1 conj dp) k ⊆ conjAt conj k := by
  rw [knockout1]
  by_cases hk : k = dp.loc
  · rw [hk]
    by_cases hlen : dp.loc < conj.length
    · rw [conjAt_updAt_self hlen]
      exact Finset.filter_subset _ _
    · rw [conjAt, updAt, getD_set_self]
      rw [if_neg hlen]
      exact Finset.Subset.refl _
  · rw [conjAt_updAt_ne hk]

theorem knockout_shrink (positive : List datapoint) :
    ∀ (conj : List (Finset ℕ)) (k : ℕ),
      conjAt (knockout conj positive) k ⊆ conjAt conj k := by
  induction positive with
  | nil =>
    intro conj k
    rw [knockout, List.foldl_nil]
  | cons dp rest ih =>
    intro conj k
    rw [knockout, List.foldl_cons]
    exact Finset.Subset.trans (ih (knockout1 conj dp) k) (knockout1_shrink conj dp k)

theorem knockout1_self_sat (conj : List (Finset ℕ)) (dp : datapoint) :
    satisfies dp (conjAt (knockout1 conj dp) dp.loc) = true := by
  rw [knockout1]
  by_cases hlen : dp.loc < conj.length
  · rw [conjAt_updAt_self hlen, satisfies_iff]
    intro c hc
    exact (Finset.mem_filter.mp hc).2
  · rw [conjAt, updAt, getD_set_self, if_neg hlen, ← conjAt]
    rw [conjAt, List.getD_eq_default]
    · exact satisfies_empty dp
    · omega

theorem knockout_self_sat (positive : List datapoint) :
    ∀ (conj : List (Finset ℕ)) (dp : datapoint), dp ∈ positive →
      satisfies dp (conjAt (knockout conj positive) dp.loc) = true := by
  induction positive with
  | nil =>
    intro conj dp h
    exact absurd h (List.not_mem_nil dp)
  | cons dp0 rest ih =>
    intro conj dp h
    rw [knockout, List.foldl_cons]
    rcases List.mem_cons.mp h with h | h
    · subst h
      rw [← knockout]
      exact satisfies_anti (knockout_shrink rest (knockout1 conj dp) dp.loc)
        (knockout1_self_sat conj dp)
    · exact ih (knockout1 conj dp0) dp h

theorem knockout1_sub {H conj : List (Finset ℕ)} {dp : datapoint}
    (hdp : satisfies dp (conjAt H dp.loc) = true)
    (hsub : ∀ k, conjAt H k ⊆ conjAt conj k) :
    ∀ k, conjAt H k ⊆ conjAt (knockout1 conj dp) k := by
  intro k
  rw [knockout1]
  by_cases hk : k = dp.loc
  · rw [hk]
    by_cases hlen : dp.loc < conj.length
    · rw [conjAt_updAt_self hlen]
      intro i hi
      rw [Finset.mem_filter]
      refine ⟨hsub dp.loc hi, ?_⟩
      rw [satisfies_iff] at hdp
      exact hdp i hi
    · rw [conjAt_updAt_out hlen]
      exact hsub dp.loc
  · rw [conjAt_updAt_ne hk]
    exact hsub k

theorem knockout_sub {H : List (Finset ℕ)} (positive : List datapoint) :
    ∀ (conj : List (Finset ℕ)),
      (∀ dp ∈ positive, satisfies dp (conjAt H dp.loc) = true) →
      (∀ k, conjAt H k ⊆ conjAt conj k) →
      ∀ k, conjAt H k ⊆ conjAt (knockout conj positive) k := by
  induction positive with
  | nil =>
    intro conj _ hsub k
    rw [knockout, List.foldl_nil]
    exact hsub k
  | cons dp rest ih =>
    intro conj hpos hsub k
    rw [knockout, List.foldl_cons]
    exact ih (knockout1 conj dp)
      (fun dp' h => hpos dp' (List.mem_cons_of_mem _ h))
      (knockout1_sub (hpos dp (List.mem_cons_self _ _)) hsub) k

theorem fire_good {H : List (Finset ℕ)} {hcs0 : List horn_constraint}
    (HH : ∀ hc ∈ hcs0,
      (∀ p ∈ hc.premises, satisfies p (conjAt H p.loc) = true) →
      ∃ c, hc.conclusion = some c ∧ satisfies c (conjAt H c.loc) = true) :
    ∀ {hcs : List horn_constraint} {conj : List (Finset ℕ)}
      {kept : List horn_constraint} {pos : List datapoint},
      (∀ k, conjAt H k ⊆ conjAt conj k) →
      (∀ hc' ∈ hcs, GoodHC H hcs0 hc') →
      fire conj hcs = .ok (kept, pos) →
      (∀ hc' ∈ kept, GoodHC H hcs0 hc') ∧
        (∀ c ∈ pos, satisfies c (conjAt H c.loc) = true) := by
  intro hcs
  induction hcs with
  | nil =>
    intro conj kept pos hsub hgood h
    rw [fire] at h
    injection h with h
    injection h with h1 h2
    rw [← h1, ← h2]
    constructor
    · intro hc' h'
      exact absurd h' (List.not_mem_nil _)
    · intro c h'
      exact absurd h' (List.not_mem_nil _)
  | cons hc rest ih =>
    intro conj kept pos hsub hgood h
    rw [fire] at h
    have hgood_hc := hgood hc (List.mem_cons_self _ _)
    have hgood_rest : ∀ hc' ∈ rest, GoodHC H hcs0 hc' :=
      fun hc' h' => hgood hc' (List.mem_cons_of_mem _ h')
    obtain ⟨hc0, hmem0, hconc0, hsub0, hrem0⟩ := hgood_hc
    have herased : ∀ p ∈ hc.premises,
        p ∈ hc.premises.filter (fun q => !(satisfies q (conjAt conj q.loc))) ∨
          satisfies p (conjAt H p.loc) = true := by
      intro p hp
      by_cases hq : satisfies p (conjAt conj p.loc)
      · right
        exact satisfies_anti (hsub p.loc) hq
      · left
        rw [List.mem_filter]
        refine ⟨hp, ?_⟩
        have hq' : satisfies p (conjAt conj p.loc) = false := by
          cases hval : satisfies p (conjAt conj p.loc)
          · rfl
          · exact absurd hval hq
        rw [hq']
        rfl
    by_cases hb : (hc.premises.filter fun p => !(satisfies p (conjAt conj p.loc))).isEmpty
    · rw [if_pos hb] at h
      have hallH : ∀ p ∈ hc0.premises, satisfies p (conjAt H p.loc) = true := by
        intro p hp
        rcases hrem0 p hp with hp' | hp'
        · rcases herased p hp' with hp'' | hp''
          · rw [List.isEmpty_iff] at hb
            rw [hb] at hp''
            exact absurd hp'' (List.not_mem_nil _)
          · exact hp''
        · exact hp'
      obtain ⟨c0, hc0c, hc0s⟩ := HH hc0 hmem0 hallH
      cases hconc : hc.conclusion with
      | none =>
        rw [hconc] at h
        exact absurd h (by simp)
      | some c =>
        rw [hconc] at h
        cases hrec : fire conj rest with
        | error e =>
          rw [hrec] at h
          exact absurd h (by simp)
        | ok pr =>
          obtain ⟨kept', pos'⟩ := pr
          rw [hrec] at h
          injection h with h
          injection h with h1 h2
          obtain ⟨ihk, ihp⟩ := ih hsub hgood_rest hrec
          rw [← h1, ← h2]
          refine ⟨ihk, ?_⟩
          intro c' h'
          rcases List.mem_cons.mp h' with h'' | h''
          · subst h''
            have h3 : some c' = some c0 := by
              rw [← hconc, ← hconc0, hc0c]
            rw [Option.some.inj h3]
            exact hc0s
          · exact ihp c' h''
    · rw [if_neg hb] at h
      cases hrec : fire conj rest with
      | error e =>
        rw [hrec] at h
        exact absurd h (by simp)
      | ok pr =>
        obtain ⟨kept', pos'⟩ := pr
        rw [hrec] at h
        injection h with h
        injection h with h1 h2
        obtain ⟨ihk, ihp⟩ := ih hsub hgood_rest hrec
        rw [← h1, ← h2]
        refine ⟨?_, ihp⟩
        intro hc' h'
        rcases List.mem_cons.mp h' with h'' | h''
        · subst h''
          refine ⟨hc0, hmem0, hconc0, ?_, ?_⟩
          · intro p hp
            exact hsub0 p (List.mem_of_mem_filter hp)
          · intro p hp
            rcases hrem0 p hp with hp' | hp'
            · exact herased p hp'
            · right
              exact hp'
        · exact ihk hc' h''

theorem horndiniLoop_maximal {H : List (Finset ℕ)} {hcs0 : List horn_constraint}
    (HH : ∀ hc ∈ hcs0,
      (∀ p ∈ hc.premises, satisfies p (conjAt H p.loc) = true) →
      ∃ c, hc.conclusion = some c ∧ satisfies c (conjAt H c.loc) = true) :
    ∀ (fuel : ℕ) {conj : List (Finset ℕ)} {hcs : List horn_constraint}
      {positive : List datapoint} {X : List (Finset ℕ)},
      (∀ k, conjAt H k ⊆ conjAt conj k) →
      (∀ dp ∈ positive, satisfies dp (conjAt H dp.loc) = true) →
      (∀ hc' ∈ hcs, GoodHC H hcs0 hc') →
      horndiniLoop fuel conj hcs positive = .ok X →
      ∀ k, conjAt H k ⊆ conjAt X k := by
  intro fuel
  induction fuel with
  | zero =>
    intro conj hcs positive X _ _ _ h
    rw [horndiniLoop] at h
    exact absurd h (by simp)
  | succ fuel ih =>
    intro conj hcs positive X hsub hpos hgood h
    rw [horndiniLoop] at h
    have hsub' : ∀ k, conjAt H k ⊆ conjAt (knockout conj positive) k :=
      knockout_sub positive conj hpos hsub
    cases hfire : fire (knockout conj positive) hcs with
    | error e =>
      rw [hfire] at h
      exact absurd h (by simp)
    | ok pr =>
      obtain ⟨hcs', newPos⟩ := pr
      rw [hfire] at h
      dsimp only at h
      obtain ⟨hgood', hpos'⟩ := fire_good HH hsub' hgood hfire
      by_cases hemp : newPos.isEmpty
      · rw [if_pos hemp] at h
        injection h with h
        rw [← h]
        exact hsub'
      · rw [if_neg hemp] at h
        exact ih hsub' hpos' hgood' h

theorem horndiniLoop_shrink :
    ∀ (fuel : ℕ) {conj : List (Finset ℕ)} {hcs : List horn_constraint}
      {positive : List datapoint} {X : List (Finset ℕ)},
      horndiniLoop fuel conj hcs positive = .ok X →
      ∀ k, conjAt X k ⊆ conjAt conj k := by
  intro fuel
  induction fuel with
  | zero =>
    intro conj hcs positive X h
    rw [horndiniLoop] at h
    exact absurd h (by simp)
  | succ fuel ih =>
    intro conj hcs positive X h k
    rw [horndiniLoop] at h
    cases hfire : fire (knockout conj positive) hcs with
    | error e =>
      rw [hfire] at h
      exact absurd h (by simp)
    | ok pr =>
      obtain ⟨hcs', newPos⟩ := pr
      rw [hfire] at h
      dsimp only at h
      by_cases hemp : newPos.isEmpty
      · rw [if_pos hemp] at h
        injection h with h
        rw [← h]
        exact knockout_shrink positive conj k
      · rw [if_neg hemp] at h
        exact Finset.Subset.trans (ih h k) (knockout_shrink positive conj k)

theorem horndiniLoop_pos :
    ∀ (fuel : ℕ) {conj : List (Finset ℕ)} {hcs : List horn_constraint}
      {positive : List datapoint} {X : List (Finset ℕ)},
      horndiniLoop fuel conj hcs positive = .ok X →
      ∀ dp, (dp ∈ positive ∨ satisfies dp (conjAt conj dp.loc) = true) →
        satisfies dp (conjAt X dp.loc) = true := by
  intro fuel
  induction fuel with
  | zero =>
    intro conj hcs positive X h
    rw [horndiniLoop] at h
    exact absurd h (by simp)
  | succ fuel ih =>
    intro conj hcs positive X h dp hdp
    rw [horndiniLoop] at h
    have hdp' : satisfies dp (conjAt (knockout conj positive) dp.loc) = true := by
      rcases hdp with hdp | hdp
      · exact knockout_self_sat positive conj dp hdp
      · exact satisfies_anti (knockout_shrink positive conj dp.loc) hdp
    cases hfire : fire (knockout conj positive) hcs with
    | error e =>
      rw [hfire] at h
      exact absurd h (by simp)
    | ok pr =>
      obtain ⟨hcs', newPos⟩ := pr
      rw [hfire] at h
      dsimp only at h
      by_cases hemp : newPos.isEmpty
      · rw [if_pos hemp] at h
        injection h with h
        rw [← h]
        exact hdp'
      · rw [if_neg hemp] at h
        exact ih h dp (Or.inr hdp')

theorem fire_trace {conj : List (Finset ℕ)} :
    ∀ {hcs : List horn_constraint} {kept : List horn_constraint} {pos : List datapoint},
      fire conj hcs = .ok (kept, pos) →
      ∀ hc' ∈ hcs,
        ((hc'.premises.filter (fun p => !(satisfies p (conjAt conj p.loc)))) ≠ [] ∧
          (⟨hc'.premises.filter (fun p => !(satisfies p (conjAt conj p.loc))),
            hc'.conclusion⟩ : horn_constraint) ∈ kept) ∨
        ((hc'.premises.filter (fun p => !(satisfies p (conjAt conj p.loc)))) = [] ∧
          ∃ c, hc'.conclusion = some c ∧ c ∈ pos) := by
  intro hcs
  induction hcs with
  | nil =>
    intro kept pos h hc' hmem
    exact absurd hmem (List.not_mem_nil _)
  | cons hc rest ih =>
    intro kept pos h hc' hmem
    rw [fire] at h
    by_cases hb : (hc.premises.filter fun p => !(satisfies p (conjAt conj p.loc))).isEmpty
    · rw [if_pos hb] at h
      cases hconc : hc.conclusion with
      | none =>
        rw [hconc] at h
        exact absurd h (by simp)
      | some c =>
        rw [hconc] at h
        cases hrec : fire conj rest with
        | error e =>
          rw [hrec] at h
          exact absurd h (by simp)
        | ok pr =>
          obtain ⟨kept', pos'⟩ := pr
          rw [hrec] at h
          injection h with h
          injection h with h1 h2
          rcases List.mem_cons.mp hmem with hmem' | hmem'
          · subst hmem'
            right
            rw [List.isEmpty_iff] at hb
            refine ⟨hb, c, hconc, ?_⟩
            rw [← h2]
            exact List.mem_cons_self _ _
          · rcases ih hrec hc' hmem' with ⟨hne, hk⟩ | ⟨he, c', hcc, hcp⟩
            · left
              refine ⟨hne, ?_⟩
              rw [← h1]
              exact hk
            · right
              refine ⟨he, c', hcc, ?_⟩
              rw [← h2]
              exact List.mem_cons_of_mem _ hcp
    · rw [if_neg hb] at h
      cases hrec : fire conj rest with
      | error e =>
        rw [hrec] at h
        exact absurd h (by simp)
      | ok pr =>
        obtain ⟨kept', pos'⟩ := pr
        rw [hrec] at h
        injection h with h
        injection h with h1 h2
        rcases List.mem_cons.mp hmem with hmem' | hmem'
        · subst hmem'
          left
          constructor
          · intro hnil
            rw [hnil] at hb
            exact hb rfl
          · rw [← h1]
            exact List.mem_cons_self _ _
        · rcases ih hrec hc' hmem' with ⟨hne, hk⟩ | ⟨he, c', hcc, hcp⟩
          · left
            refine ⟨hne, ?_⟩
            rw [← h1]
            exact List.mem_cons_of_mem _ hk
          · right
            refine ⟨he, c', hcc, ?_⟩
            rw [← h2]
            exact hcp

theorem horndiniLoop_horn (hc0 : horn_constraint) :
    ∀ (fuel : ℕ) {conj : List (Finset ℕ)} {hcs : List horn_constraint}
      {positive : List datapoint} {X : List (Finset ℕ)},
      horndiniLoop fuel conj hcs positive = .ok X →
      HInv hc0 conj hcs positive →
      (∀ p ∈ hc0.premises, satisfies p (conjAt X p.loc) = true) →
      ∃ c, hc0.conclusion = some c ∧ satisfies c (conjAt X c.loc) = true := by
  intro fuel
  induction fuel with
  | zero =>
    intro conj hcs positive X h
    rw [horndiniLoop] at h
    exact absurd h (by simp)
  | succ fuel ih =>
    intro conj hcs positive X h hinv hsatX
    rw [horndiniLoop] at h
    -- transport the invariant through the knock-out pass
    have hinv' : HInv hc0 (knockout conj positive) hcs [] := by
      rcases hinv with ⟨hc', hmem, hcc, hsub, hrem⟩ | ⟨c, hcc, hcs'⟩
      · left
        refine ⟨hc', hmem, hcc, hsub, ?_⟩
        intro p hp
        rcases hrem p hp with hp' | hp'
        · exact Or.inl hp'
        · exact Or.inr (satisfies_anti (knockout_shrink positive conj p.loc) hp')
      · right
        refine ⟨c, hcc, Or.inr ?_⟩
        rcases hcs' with hcs' | hcs'
        · exact knockout_self_sat positive conj c hcs'
        · exact satisfies_anti (knockout_shrink positive conj c.loc) hcs'
    cases hfire : fire (knockout conj positive) hcs with
    | error e =>
      rw [hfire] at h
      exact absurd h (by simp)
    | ok pr =>
      obtain ⟨hcs', newPos⟩ := pr
      rw [hfire] at h
      dsimp only at h
      by_cases hemp : newPos.isEmpty
      · -- exit: X is the knocked-out conjunctions
        rw [if_pos hemp] at h
        injection h with h
        rcases hinv' with ⟨hc', hmem, hcc, hsub, hrem⟩ | ⟨c, hcc, hcs''⟩
        · rcases fire_trace hfire hc' hmem with ⟨hne, _⟩ | ⟨_, c, hcc', hcp⟩
          · exfalso
            rcases List.exists_mem_of_ne_nil _ hne with ⟨p, hp⟩
            rw [List.mem_filter] at hp
            have hpX := hsatX p (hsub p hp.1)
            rw [← h] at hpX
            rw [hpX] at hp
            exact absurd hp.2 (by simp)
          · refine ⟨c, ?_, ?_⟩
            · rw [← hcc]
              exact hcc'
            · exfalso
              rw [List.isEmpty_iff] at hemp
              rw [hemp] at hcp
              exact absurd hcp (List.not_mem_nil _)
        · rcases hcs'' with hcs'' | hcs''
          · exact absurd hcs'' (List.not_mem_nil _)
          · refine ⟨c, hcc, ?_⟩
            rw [← h]
            exact hcs''
      · -- continue: transport the invariant through the firing pass
        rw [if_neg hemp] at h
        refine ih h ?_ hsatX
        rcases hinv' with ⟨hc', hmem, hcc, hsub, hrem⟩ | ⟨c, hcc, hcs''⟩
        · rcases fire_trace hfire hc' hmem with ⟨hne, hk⟩ | ⟨_, c, hcc', hcp⟩
          · left
            refine ⟨⟨hc'.premises.filter
                (fun p => !(satisfies p (conjAt (knockout conj positive) p.loc))),
              hc'.conclusion⟩, hk, hcc, ?_, ?_⟩
            · intro p hp
              exact hsub p (List.mem_of_mem_filter hp)
            · intro p hp
              rcases hrem p hp with hp' | hp'
              · by_cases hq : satisfies p (conjAt (knockout conj positive) p.loc)
                · exact Or.inr hq
                · left
                  rw [List.mem_filter]
                  refine ⟨hp', ?_⟩
                  have hq' : satisfies p (conjAt (knockout conj positive) p.loc) = false := by
                    cases hval : satisfies p (conjAt (knockout conj positive) p.loc)
                    · rfl
                    · exact absurd hval hq
                  rw [hq']
                  rfl
              · exact Or.inr hp'
          · right
            refine ⟨c, ?_, Or.inl hcp⟩
            rw [← hcc]
            exact hcc'
        · rcases hcs'' with hcs'' | hcs''
          · exact absurd hcs'' (List.not_mem_nil _)
          · right
            exact ⟨c, hcc, Or.inr hcs''⟩

theorem conjAt_map_Icc (intervals : List (ℕ × ℕ)) :
    ∀ (k : ℕ), conjAt (intervals.map (fun p => Finset.Icc p.1 p.2)) k =
      Finset.Icc (intervals.getD k (1, 0)).1 (intervals.getD k (1, 0)).2 := by
  induction intervals with
  | nil =>
    intro k
    rw [conjAt, List.map_nil]
    rw [List.getD_eq_default, List.getD_eq_default]
    · rw [Finset.Icc_eq_empty]
      omega
    · exact Nat.zero_le _
    · exact Nat.zero_le _
  | cons p rest ih =>
    intro k
    cases k with
    | zero =>
      rw [conjAt, List.map_cons, List.getD_cons_zero, List.getD_cons_zero]
    | succ m =>
      rw [conjAt, List.map_cons, List.getD_cons_succ, List.getD_cons_succ, ← conjAt]
      exact ih m

/-- C2 counterexample: Horndini never inspects negative examples, so its
output need not be consistent with them — with a positive and a negative
data point carrying the same bits `[1, 1]`, Horndini returns `{0, 1}`
without failing, and `is_consistent` rejects that output. -/
theorem C2_counterexample :
    horndiniX [⟨[true, true], 0, true, true⟩, ⟨[true, true], 0, true, false⟩]
        [] [(0, 1)] = .ok [({0, 1} : Finset ℕ)] ∧
      is_consistent [({0, 1} : Finset ℕ)]
        [⟨[true, true], 0, true, true⟩, ⟨[true, true], 0, true, false⟩] [] = false := by
  refine ⟨by decide, by decide⟩

/-- C2 (amended): when Horndini returns `X` without failing, `X` satisfies
every positive example and every Horn constraint (negative examples are not
inspected and may be violated), and `X` is the greatest such hypothesis:
every per-location hypothesis `H` that stays within the location intervals
and is consistent with the data and Horn constraints satisfies
`H[k] ⊆ X[k]` at every location. -/
theorem C2_horndini_greatest (datapoints : List datapoint)
    (horn_constraints : List horn_constraint) (intervals : List (ℕ × ℕ))
    (X : List (Finset ℕ))
    (h : horndiniX datapoints horn_constraints intervals = .ok X) :
    (∀ dp ∈ datapoints, dp.is_classified = true → dp.classification = true →
        satisfies dp (conjAt X dp.loc) = true) ∧
    (∀ hc ∈ horn_constraints,
        (∀ p ∈ hc.premises, satisfies p (conjAt X p.loc) = true) →
        ∃ c, hc.conclusion = some c ∧ satisfies c (conjAt X c.loc) = true) ∧
    (∀ H : List (Finset ℕ),
        (∀ k, conjAt H k ⊆
          Finset.Icc (intervals.getD k (1, 0)).1 (intervals.getD k (1, 0)).2) →
        is_consistent H datapoints horn_constraints = true →
        ∀ k, conjAt H k ⊆ conjAt X k) := by
  rw [horndiniX] at h
  by_cases hemp : intervals.isEmpty
  · rw [if_pos hemp] at h
    exact absurd h (by simp)
  · rw [if_neg hemp] at h
    rw [horndini] at h
    refine ⟨?_, ?_, ?_⟩
    · intro dp hmem hcl hpos
      refine horndiniLoop_pos _ h dp (Or.inl ?_)
      rw [List.mem_filter]
      refine ⟨hmem, ?_⟩
      rw [hcl, hpos]
      rfl
    · intro hc hmem hsatX
      refine horndiniLoop_horn hc _ h ?_ hsatX
      left
      exact ⟨hc, hmem, rfl, fun p hp => hp, fun p hp => Or.inl hp⟩
    · intro H hIcc hcons k
      obtain ⟨hHpos, hHneg, hHhorn⟩ := is_consistent_iff.mp hcons
      refine horndiniLoop_maximal hHhorn _ ?_ ?_ ?_ h k
      · intro k'
        rw [conjAt_map_Icc]
        exact hIcc k'
      · intro dp hdp
        rw [List.mem_filter] at hdp
        obtain ⟨hmem, hcl⟩ := hdp
        rw [Bool.and_eq_true] at hcl
        exact hHpos dp hmem hcl.1 hcl.2
      · intro hc' hmem
        exact ⟨hc', hmem, rfl, fun p hp => hp, fun p hp => Or.inl hp⟩

theorem C2_horndini_greatest_witness :
    satisfies dpS1a (conjAt [({0, 3} : Finset ℕ)] dpS1a.loc) = true :=
  (C2_horndini_greatest [dpS1a, dpS1b] [] [(0, 3)] [({0, 3} : Finset ℕ)]
      (by decide)).1 dpS1a (List.mem_cons_self _ _) rfl rfl

theorem getD_mapIdx_lt {α β : Type} (l : List α) (f : ℕ → α → β) (j : ℕ) (d : β)
    (h : j < l.length) :
    (l.mapIdx f).getD j d = f j (l.get ⟨j, h⟩) := by
  have hlen : j < (l.mapIdx f).length := by
    rw [List.length_mapIdx]
    exact h
  rw [List.getD_eq_getElem _ _ hlen]
  have := List.get_mapIdx l f j h
  simp only [List.get_eq_getElem] at this
  exact this

theorem getD_mapIdx_ge {α β : Type} (l : List α) (f : ℕ → α → β) (j : ℕ) (d : β)
    (h : l.length ≤ j) : (l.mapIdx f).getD j d = d := by
  rw [List.getD_eq_default]
  rw [List.length_mapIdx]
  exact h

theorem getD_eq_get {α : Type} (l : List α) (j : ℕ) (d : α) (h : j < l.length) :
    l.getD j d = l.get ⟨j, h⟩ := by
  rw [List.getD_eq_getElem _ _ h]
  simp

theorem update_preserves_zero (w : winnow) (dp : datapoint) (pred : Bool) (j : ℕ)
    (h : w.weights.getD j 0 = 0) : (w.update dp pred).weights.getD j 0 = 0 := by
  rw [winnow.update]
  dsimp only
  by_cases hj : j < w.weights.length
  · rw [getD_mapIdx_lt _ _ _ _ hj]
    rw [getD_eq_get _ _ _ hj] at h
    rw [h]
    by_cases h1 : j < dp.bits.length
    · rw [if_pos h1]
      by_cases h2 : !dp.classification && pred && dp.bits.getD j false
      · rw [if_pos h2]
        exact zero_div _
      · rw [if_neg h2]
        by_cases h3 : dp.classification && !pred && dp.bits.getD j false
        · rw [if_pos h3]
          exact zero_mul _
        · rw [if_neg h3]
    · rw [if_neg h1]
  · rw [getD_mapIdx_ge _ _ _ _ (by omega)]

theorem train_once_preserves_zero (dps : List datapoint) :
    ∀ (w : winnow) (j : ℕ), w.weights.getD j 0 = 0 →
      (w.train_once dps).weights.getD j 0 = 0 := by
  induction dps with
  | nil =>
    intro w j h
    rw [winnow.train_once, List.foldl_nil]
    exact h
  | cons dp rest ih =>
    intro w j h
    rw [winnow.train_once, List.foldl_cons]
    exact ih _ j (update_preserves_zero w dp (w.predict dp) j h)

theorem train_preserves_zero :
    ∀ (fuel : ℕ) (w : winnow) (dps : List datapoint) (j : ℕ),
      w.weights.getD j 0 = 0 → (winnow.train fuel w dps).weights.getD j 0 = 0 := by
  intro fuel
  induction fuel with
  | zero =>
    intro w dps j h
    rw [winnow.train]
    exact h
  | succ fuel ih =>
    intro w dps j h
    rw [winnow.train]
    by_cases hacc : w.check_acc dps
    · rw [if_pos hacc]
      exact h
    · rw [if_neg hacc]
      exact ih _ dps j (train_once_preserves_zero dps w j h)

theorem foldl_add_eq (g : ℕ → ℚ) :
    ∀ (l : List ℕ) (a : ℚ), l.foldl (fun s i => s + g i) a = a + (l.map g).sum := by
  intro l
  induction l with
  | nil =>
    intro a
    simp
  | cons b t ih =>
    intro a
    rw [List.foldl_cons, ih]
    simp only [List.map_cons, List.sum_cons]
    ring

theorem list_range_map_sum (g : ℕ → ℚ) (n : ℕ) :
    ((List.range n).map g).sum = (Finset.range n).sum g := by
  induction n with
  | zero => simp
  | succ m ih =>
    rw [List.range_succ, Finset.sum_range_succ, List.map_append, List.sum_append, ih]
    simp

theorem predictSum_eq_sum (w : winnow) (dp : datapoint) :
    w.predictSum dp = (Finset.range dp.bits.length).sum
      (fun i => w.weights.getD i 0 * (if dp.bits.getD i false then 1 else 0)) := by
  rw [winnow.predictSum, foldl_add_eq, zero_add, list_range_map_sum]

/-- C8: before Winnow training begins, the masking loop of
`winnow::execute_algorithm` zeroes, at every location `i`, the weight of
every index `j` outside `X[i]` — uniformly in the location, including
locations whose interval does not start at 0; a zero weight stays zero under
every Winnow update (so through the whole training), and the prediction sum
only receives contributions from indices inside the masked set, so predicates
outside `X[i]` contribute nothing to any prediction at that location. -/
theorem C8_alphabet_masking :
    (∀ (w_objs : List winnow) (X : List (Finset ℕ)) (i j : ℕ), j ∉ conjAt X i →
      ((maskWeights w_objs X).getD i default).weights.getD j 0 = 0) ∧
    (∀ (fuel : ℕ) (w : winnow) (dps : List datapoint) (j : ℕ),
      w.weights.getD j 0 = 0 → (winnow.train fuel w dps).weights.getD j 0 = 0) ∧
    (∀ (w : winnow) (dp : datapoint) (S : Finset ℕ),
      (∀ j, j ∉ S → w.weights.getD j 0 = 0) →
      w.predictSum dp = ((Finset.range dp.bits.length).filter (fun i => i ∈ S)).sum
        (fun i => w.weights.getD i 0 * (if dp.bits.getD i false then 1 else 0))) := by
  refine ⟨?_, train_preserves_zero, ?_⟩
  · intro w_objs X i j hj
    rw [maskWeights]
    by_cases hi : i < w_objs.length
    · rw [getD_mapIdx_lt _ _ _ _ hi]
      dsimp only
      by_cases hjlen : j < (w_objs.get ⟨i, hi⟩).weights.length
      · rw [getD_mapIdx_lt _ _ _ _ hjlen]
        rw [if_neg hj]
      · rw [getD_mapIdx_ge _ _ _ _ (by omega)]
    · rw [getD_mapIdx_ge _ _ _ _ (by omega)]
      rfl
  · intro w dp S hS
    rw [predictSum_eq_sum]
    rw [← Finset.sum_filter_add_sum_filter_not (Finset.range dp.bits.length)
      (fun i => i ∈ S)]
    have hzero : ((Finset.range dp.bits.length).filter (fun i => ¬(i ∈ S))).sum
        (fun i => w.weights.getD i 0 * (if dp.bits.getD i false then 1 else 0)) = 0 := by
      refine Finset.sum_eq_zero ?_
      intro i hi
      rw [Finset.mem_filter] at hi
      rw [hS i hi.2, zero_mul]
    rw [hzero, add_zero]

theorem C8_alphabet_masking_witness :
    ((maskWeights [⟨[3, 5], 1, 2⟩] [({1} : Finset ℕ)]).getD 0 default).weights.getD 0 0 = 0 ∧
      winnow.predictSum ⟨[0, 5], 1, 2⟩ ⟨[true, true], 0, true, true⟩ =
        ((Finset.range 2).filter (fun i => i ∈ ({1} : Finset ℕ))).sum
          (fun i => ([(0 : ℚ), 5].getD i 0) * (if [true, true].getD i false then 1 else 0)) :=
  ⟨C8_alphabet_masking.1 [⟨[3, 5], 1, 2⟩] [({1} : Finset ℕ)] 0 0 (by decide),
   C8_alphabet_masking.2.2 ⟨[0, 5], 1, 2⟩ ⟨[true, true], 0, true, true⟩ {1}
      (fun j hj => by
        match j with
        | 0 => rfl
        | 1 => exact absurd (show (1 : ℕ) ∈ ({1} : Finset ℕ) by decide) hj
        | n + 2 => rfl)⟩

theorem C7_ltf2bool_threshold_witness :
    accepts
        (ltf2bool (fun j => if j < 2 then 1 else 0) 3 {0, 1} 1)
        (fun _ => true) = true :=
  (C7_ltf2bool_threshold 3 (fun j => if j < 2 then 1 else 0) {0, 1} 1
      (fun _ => true) (by decide)
      (fun j hj => by
        show (0 : ℤ) ≤ if j < 2 then 1 else 0
        by_cases h : j < 2
        · rw [if_pos h]
          omega
        · rw [if_neg h])).1 (by decide)

end HornVerification
